import Mathlib

/-!
Verification development for the sprokkel markup-rendering core.

The definitions below are a shallow embedding, in Lean, of the Rust sources:
  * `src/ir_markup.rs` — the IR event model, the ordered `Attributes` container,
    the stateful HTML `Writer` (`push_html`), title extraction
    (`parse_and_render_title`) and internal-link rewriting
    (`rewrite_and_emit_internal_links`);
  * `src/djot.rs` — the Djot (jotdown) adapter `djot_to_ir` together with its
    helpers `iter_container` / `iter_container_from_inside` /
    `render_to_raw_string`.

Strings are modelled by Lean `String` (Rust `&str`/`String`/`Cow<str>`); where
Rust indexes by UTF-8 bytes the byte structure is made explicit (`utf8Len`,
`isCharBoundary`).  Fallible code returns `Except`; a Rust panic is the
distinguished `Halt.panic` / `Option.none` outcome.  HashMaps are modelled by
association lists in insertion order (insertion order is irrelevant to every
property proved here; sizes coincide because keys stay distinct by
construction).
-/

deriving instance DecidableEq for Except

namespace Sprokkel

/-! ## Attribute values

`ir_markup.rs` stores attribute values as `AttributeValue` (either a value
produced by the jotdown parser or a raw string) and renders them through
`AttributeValuePlusFmt::write_escaped`: `Raw` values are HTML-escaped with
`pulldown_cmark_escape::escape_html`, while `FmtArguments`/`Display` values
(writer-internal, e.g. `#{id}` anchors and `fn-{num}` ids) are written
verbatim.  `raw` models the escaped kind, `fmt` the verbatim kind.  (Values
still wrapped in `AttributeValue::Jotdown`, whose Display implementation lives
in the external jotdown crate, are not modelled; no theorem below renders
one.) -/
inductive AttrVal where
  | raw (s : String)
  | fmt (s : String)
  deriving DecidableEq, Repr

/-- Block element attributes: the backing store of `Attributes` in
`ir_markup.rs`, a vector of key/value pairs kept sorted by key. -/
abbrev Attrs := List (String × AttrVal)

/-- The sorted-insertion branch of `Attributes::push` (`ir_markup.rs` lines
67-75): scan for the first existing key strictly greater than the new key and
insert just before it. -/
def Attributes.insertSorted (k : String) (v : AttrVal) : Attrs → Attrs
  | [] => [(k, v)]
  | (k', v') :: rest =>
    if k' > k then (k, v) :: (k', v') :: rest
    else (k', v') :: Attributes.insertSorted k v rest

/-- The overwrite branch of `Attributes::push`: replace the value of the first
entry whose key equals `k`, leaving the key itself and every other entry in
place. -/
def Attributes.replaceFirst (k : String) (v : AttrVal) : Attrs → Attrs
  | [] => []
  | (k', v') :: rest =>
    if k' = k then (k', v) :: rest
    else (k', v') :: Attributes.replaceFirst k v rest

/-- `Attributes::push` (`ir_markup.rs` lines 57-77): if the key is present,
overwrite its value in place; otherwise insert the pair at the sorted
position. -/
def Attributes.push (attrs : Attrs) (k : String) (v : AttrVal) : Attrs :=
  if (attrs.find? (fun p => p.1 = k)).isSome then Attributes.replaceFirst k v attrs
  else Attributes.insertSorted k v attrs

/-- Fold a sequence of `push` calls starting from `Attributes::new()` (the
empty attribute set). -/
def Attributes.pushList (ps : List (String × AttrVal)) : Attrs :=
  ps.foldl (fun acc p => Attributes.push acc p.1 p.2) []

/-! ## The IR event model (`ir_markup.rs` lines 212-346) -/

inductive Alignment where
  | unspecified | left | center | right
  deriving DecidableEq, Repr

inductive OrderedListNumbering where
  | decimal | alphaLower | alphaUpper | romanLower | romanUpper
  deriving DecidableEq, Repr

inductive ListKind where
  | unordered
  | ordered (numbering : OrderedListNumbering) (start : Nat)
  | task
  deriving DecidableEq, Repr

inductive MathKind where
  | display | inline
  deriving DecidableEq, Repr

/-- `Container` from `ir_markup.rs`.  (`Section` is spelled `sec` because
`section` is a Lean keyword.) -/
inductive Container where
  | blockquote
  | descriptionList
  | descriptionTerm
  | descriptionDetails
  | heading (level : Nat) (id : String)
  | sec (id : String)
  | div
  | paragraph
  | link (destination : String)
  | list (kind : ListKind) (tight : Bool)
  | listItem
  | taskListItem (checked : Bool)
  | table
  | tableHead
  | tableBody
  | tableRow
  | tableCell (alignment : Alignment) (head : Bool)
  | footnote (label : String)
  | other (tag : String)
  deriving DecidableEq, Repr

/-- `ContainerEnd` from `ir_markup.rs`: the closing vocabulary, carrying only
the payload needed to close. -/
inductive ContainerEnd where
  | blockquote
  | descriptionList
  | descriptionTerm
  | descriptionDetails
  | heading (level : Nat)
  | sec
  | div
  | paragraph
  | link
  | list (kind : ListKind)
  | listItem
  | taskListItem
  | table
  | tableHead
  | tableBody
  | tableRow
  | tableCell (head : Bool)
  | footnote
  | other (tag : String)
  deriving DecidableEq, Repr

/-- `Event` from `ir_markup.rs` (the IR event stream). -/
inductive Event where
  | start (container : Container) (attributes : Attrs)
  | end_ (container : ContainerEnd)
  | str (s : String)
  | image (destination : String) (alt : String) (attributes : Attrs)
  | codeBlock (language : String) (code : String) (attributes : Attrs)
  | math (kind : MathKind) (math : String) (attributes : Attrs)
  | htmlInline (content : String) (attributes : Attrs)
  | htmlBlock (content : String) (attributes : Attrs)
  | tagWithAttribute (tag : String) (attributes : Attrs)
  | footnoteReference (reference : String)
  deriving DecidableEq, Repr

/-! ## HTML escaping

Models the external crate `pulldown_cmark_escape` (v0.10), the single escaping
point of the writer.  Its escape table maps `&` ↦ `&amp;`, `<` ↦ `&lt;`,
`>` ↦ `&gt;` and, for the attribute variant `escape_html` only, `"` ↦ `&quot;`
and `'` ↦ `&#x27;`; the body-text variant `escape_html_body_text` deliberately
leaves both quote characters unescaped (the crate builds its body-text table
by omitting the two quote entries). -/
def escapeHtmlBodyChar (c : Char) : String :=
  if c = '&' then "&amp;"
  else if c = '<' then "&lt;"
  else if c = '>' then "&gt;"
  else String.mk [c]

/-- `pulldown_cmark_escape::escape_html_body_text`. -/
def escapeHtmlBodyText (s : String) : String :=
  String.join (s.data.map escapeHtmlBodyChar)

def escapeHtmlChar (c : Char) : String :=
  if c = '&' then "&amp;"
  else if c = '<' then "&lt;"
  else if c = '>' then "&gt;"
  else if c = '"' then "&quot;"
  else if c = '\'' then "&#x27;"
  else String.mk [c]

/-- `pulldown_cmark_escape::escape_html` (attribute values). -/
def escapeHtml (s : String) : String :=
  String.join (s.data.map escapeHtmlChar)

/-- `AttributeValuePlusFmt::write_escaped`: `Raw` values are escaped with
`escape_html`, format-argument values are written verbatim. -/
def AttrVal.writeEscaped : AttrVal → String
  | .raw s => escapeHtml s
  | .fmt s => s

/-! ## The Writer (`ir_markup.rs` lines 348-693)

The writer owns the output buffer, the current write target (main buffer or
one footnote's private buffer), the list-tightness stack (a `BitVec` in the
source) and the footnote registry (a `HashMap`, modelled as an association
list in insertion order — `or_insert` appends; the map size is the list
length since a label is appended only when absent). -/

/-- `Footnote` (`ir_markup.rs` lines 354-359); `defined` is
`FootnoteState::Defined`, `false` is `FootnoteState::Missing`. -/
structure Footnote where
  buf : String
  number : Nat
  defined : Bool
  deriving DecidableEq, Repr

structure WriterSt where
  buf : String
  /-- `WriteTarget`: `none` is `Buf`, `some label` is `FootnotesBuf`. -/
  target : Option String
  list_tightness : List Bool
  footnotes : List (String × Footnote)
  deriving DecidableEq, Repr

/-- Abnormal outcomes of a render: `error` is a returned `Err`, `panic` is a
Rust panic (`expect`/out-of-bounds indexing). -/
inductive Halt where
  | error (msg : String)
  | panic (msg : String)
  deriving DecidableEq, Repr

/-- `HashMap::get` on a string-keyed map modelled as an association list. -/
def lookupMap {α : Type} (m : List (String × α)) (k : String) : Option α :=
  (m.find? (fun p => p.1 = k)).map (fun p => p.2)

def Writer.in_tight_list (st : WriterSt) : Bool :=
  st.list_tightness.getLast? |>.getD false

/-- `Writer::with_buf`: apply a buffer-mutating closure to the buffer selected
by the write target; a dangling footnote label is the source's
`expect("called with unregistered footnote label")` panic. -/
def Writer.with_buf (st : WriterSt) (f : String → String) : Except Halt WriterSt :=
  match st.target with
  | none => .ok { st with buf := f st.buf }
  | some label =>
    if (st.footnotes.find? (fun p => p.1 = label)).isSome then
      .ok { st with
        footnotes := st.footnotes.map (fun p =>
          if p.1 = label then (p.1, { p.2 with buf := f p.2.buf }) else p) }
    else .error (Halt.panic "called with unregistered footnote label")

def endsWithNewline (s : String) : Bool :=
  s.data.getLast? == some '\n'

/-- The buffer after `Writer::ensure_newline`: append `'\n'` unless the buffer
is empty or already ends with a newline. -/
def newlineTerminated (b : String) : String :=
  if b.isEmpty || endsWithNewline b then b else b ++ "\n"

def Writer.write (st : WriterSt) (s : String) : Except Halt WriterSt :=
  Writer.with_buf st (fun b => b ++ s)

def Writer.ensure_newline (st : WriterSt) : Except Halt WriterSt :=
  Writer.with_buf st newlineTerminated

/-- `Writer::write_on_new_line`: `ensure_newline` followed by `write`, both on
the buffer selected by the current write target. -/
def Writer.write_on_new_line (st : WriterSt) (s : String) : Except Halt WriterSt :=
  Writer.with_buf st (fun b => newlineTerminated b ++ s)

/-- The text `Writer::write_tag_with_attributes` appends:
`<tag attr1="v1" attr2="v2" …>` with each value escaped by `write_escaped`. -/
def tagText (tag : String) (attributes : List (String × AttrVal)) : String :=
  "<" ++ tag
      ++ String.join (attributes.map (fun p => " " ++ p.1 ++ "=\"" ++ p.2.writeEscaped ++ "\""))
      ++ ">"

def Writer.write_tag_with_attributes (st : WriterSt) (tag : String)
    (attributes : List (String × AttrVal)) : Except Halt WriterSt :=
  Writer.write st (tagText tag attributes)

def Writer.write_tag_with_attributes_on_new_line (st : WriterSt) (tag : String)
    (attributes : List (String × AttrVal)) : Except Halt WriterSt :=
  Writer.write_on_new_line st (tagText tag attributes)

/-- `Writer::register_footnote_reference` (`ir_markup.rs` lines 469-483):
compute `len + 1`, then `entry(label).or_insert(…)` and return the (existing
or fresh) entry's number. -/
def register_footnote_reference (fns : List (String × Footnote)) (label : String) :
    List (String × Footnote) × Nat :=
  let number := fns.length + 1
  match fns.find? (fun p => p.1 = label) with
  | some p => (fns, p.2.number)
  | none => (fns ++ [(label, { buf := "", number := number, defined := false })], number)

/-- `Writer::register_footnote_definition` (`ir_markup.rs` lines 485-500):
like the reference variant, but the entry's state is set to `Defined` (a
duplicate definition only logs a warning). -/
def register_footnote_definition (fns : List (String × Footnote)) (label : String) :
    List (String × Footnote) × Nat :=
  let number := fns.length + 1
  match fns.find? (fun p => p.1 = label) with
  | some p =>
    (fns.map (fun q => if q.1 = label then (q.1, { q.2 with defined := true }) else q),
     p.2.number)
  | none => (fns ++ [(label, { buf := "", number := number, defined := true })], number)

def headingTag (level : Nat) : String :=
  match level with
  | 1 => "h1" | 2 => "h2" | 3 => "h3" | 4 => "h4" | 5 => "h5" | _ => "h6"

def headingEndText (level : Nat) : String :=
  match level with
  | 1 => "</a></h1>\n" | 2 => "</a></h2>\n" | 3 => "</a></h3>\n"
  | 4 => "</a></h4>\n" | 5 => "</a></h5>\n" | _ => "</a></h6>\n"

/-- `Writer::start_tag` (`ir_markup.rs` lines 502-629). -/
def start_tag (st : WriterSt) (container : Container) (attributes : Attrs) :
    Except Halt WriterSt :=
  match container with
  | .blockquote => Writer.write_tag_with_attributes_on_new_line st "blockquote" attributes
  | .descriptionList => Writer.write_tag_with_attributes_on_new_line st "dl" attributes
  | .descriptionTerm => Writer.write_tag_with_attributes_on_new_line st "dt" attributes
  | .descriptionDetails => Writer.write_tag_with_attributes_on_new_line st "dd" attributes
  | .sec id =>
    Writer.write_tag_with_attributes_on_new_line st "section"
      (attributes ++ [("id", AttrVal.raw id)])
  | .heading level id => do
    let st ← Writer.write_tag_with_attributes_on_new_line st (headingTag level) attributes
    Writer.write_tag_with_attributes st "a" [("href", AttrVal.fmt ("#" ++ id))]
  | .div => Writer.write_tag_with_attributes_on_new_line st "div" attributes
  | .paragraph =>
    if Writer.in_tight_list st then .ok st
    else Writer.write_tag_with_attributes_on_new_line st "p" attributes
  | .link destination =>
    Writer.write_tag_with_attributes_on_new_line st "a"
      (attributes ++ [("href", AttrVal.raw destination)])
  | .list kind tight =>
    let st := { st with list_tightness := st.list_tightness ++ [tight] }
    match kind with
    | .unordered => Writer.write_tag_with_attributes_on_new_line st "ul" attributes
    | .ordered numbering start =>
      let typeAttr : Option (String × AttrVal) :=
        match numbering with
        | .decimal => none
        | .alphaLower => some ("type", AttrVal.raw "a")
        | .alphaUpper => some ("type", AttrVal.raw "A")
        | .romanLower => some ("type", AttrVal.raw "i")
        | .romanUpper => some ("type", AttrVal.raw "I")
      let startAttr : Option (String × AttrVal) :=
        if start = 1 then none else some ("start", AttrVal.raw (toString start))
      Writer.write_tag_with_attributes_on_new_line st "ol"
        (attributes ++ typeAttr.toList ++ startAttr.toList)
    | .task =>
      Writer.write_tag_with_attributes_on_new_line st "ul"
        (attributes ++ [("class", AttrVal.raw "task-list")])
  | .listItem => Writer.write_tag_with_attributes_on_new_line st "li" attributes
  | .taskListItem checked =>
    Writer.write_tag_with_attributes_on_new_line st "li"
      (attributes ++
        [("class", AttrVal.raw (if checked then "checked" else "unchecked")),
         ("data-checked", AttrVal.raw (if checked then "true" else "false"))])
  | .table => Writer.write_tag_with_attributes_on_new_line st "table" attributes
  | .tableHead => Writer.write_tag_with_attributes_on_new_line st "thead" attributes
  | .tableBody => Writer.write_tag_with_attributes_on_new_line st "tbody" attributes
  | .tableRow => Writer.write_tag_with_attributes_on_new_line st "tr" attributes
  | .tableCell alignment head =>
    let tag := if head then "th" else "td"
    let style : Option (String × AttrVal) :=
      match alignment with
      | .unspecified => none
      | .left => some ("style", AttrVal.raw "text-align: left;")
      | .center => some ("style", AttrVal.raw "text-align: center;")
      | .right => some ("style", AttrVal.raw "text-align: right;")
    Writer.write_tag_with_attributes_on_new_line st tag style.toList
  | .footnote label =>
    let reg := register_footnote_definition st.footnotes label
    let st := { st with footnotes := reg.1, target := some label }
    Writer.write_tag_with_attributes_on_new_line st "li"
      (attributes ++
        [("class", AttrVal.raw "footnote-definition"),
         ("id", AttrVal.fmt ("fn-" ++ toString reg.2)),
         ("role", AttrVal.raw "doc-footnote")])
  | .other tag => Writer.write_tag_with_attributes_on_new_line st tag attributes

/-- `Writer::end_tag` (`ir_markup.rs` lines 631-693). -/
def end_tag (st : WriterSt) (container : ContainerEnd) : Except Halt WriterSt :=
  match container with
  | .blockquote => Writer.write st "</blockquote>"
  | .descriptionList => Writer.write_on_new_line st "</dl>\n"
  | .descriptionTerm => Writer.write st "</dt>"
  | .descriptionDetails => Writer.write st "</dd>"
  | .heading level => Writer.write st (headingEndText level)
  | .sec => Writer.write st "</section>\n"
  | .div => Writer.write st "</div>\n"
  | .paragraph =>
    if Writer.in_tight_list st then .ok st else Writer.write st "</p>\n"
  | .link => Writer.write st "</a>"
  | .list kind =>
    let st := { st with list_tightness := st.list_tightness.dropLast }
    match kind with
    | .unordered | .task => Writer.write st "</ul>\n"
    | .ordered _ _ => Writer.write st "</ol>\n"
  | .listItem => Writer.write st "</li>\n"
  | .taskListItem => Writer.write st "</li>\n"
  | .table => Writer.write st "</table>\n"
  | .tableHead => Writer.write st "</thead>\n"
  | .tableBody => Writer.write st "</tbody>\n"
  | .tableRow => Writer.write st "</tr>\n"
  | .tableCell head =>
    Writer.write st ("</" ++ (if head then "th" else "td") ++ ">\n")
  | .footnote => do
    let st ← Writer.write_on_new_line st "</li>\n"
    .ok { st with target := none }
  | .other tag => Writer.write st ("</" ++ tag ++ ">")

/-! ## `push_html` (`ir_markup.rs` lines 695-863)

The code-block arm calls `highlight::highlight`, an external component whose
`Highlighted`-returning variant is not among the provided sources (only this
caller is); it is therefore passed in as a function parameter `hl`.  The math
arm is the build without the optional `katex`/`latex2mathml` features: the
math source is escaped as body text. -/

/-- `highlight::Highlighted` as consumed by `push_html`. -/
inductive Highlighted where
  | plain (s : String)
  | highlighted (language : String) (html : String)
  deriving DecidableEq, Repr

/-- The external highlighter: `highlight(code, language)`. -/
abbrev Hl := String → String → Except String Highlighted

/-- `types::Images`: one image's precomputed variants. -/
structure Images where
  original : String
  original_width : Option Nat
  x_1536 : Option String
  x_768 : Option String
  deriving DecidableEq, Repr

/-- One iteration of the `push_html` event loop. -/
def step (hl : Hl) (images : List (String × Images)) (st : WriterSt) (ev : Event) :
    Except Halt WriterSt :=
  match ev with
  | .start container attributes => start_tag st container attributes
  | .end_ container => end_tag st container
  | .str s => Writer.with_buf st (fun b => b ++ escapeHtmlBodyText s)
  | .image destination alt attributes =>
    match lookupMap images destination with
    | none => .ok st
    | some imgs =>
      let srcset_style : Option (String × String) := imgs.original_width.map (fun width =>
        ("/" ++ imgs.original ++ " " ++ toString width ++ "w"
            ++ (match imgs.x_1536 with
                | some link => ",/" ++ link ++ " 1536w"
                | none => "")
            ++ (match imgs.x_768 with
                | some link => ",/" ++ link ++ " 768w"
                | none => ""),
          "max-width: calc(min(100%, " ++ toString width ++ "px))"))
      Writer.write_tag_with_attributes_on_new_line st "img"
        (attributes ++ [("src", AttrVal.raw destination)]
          ++ (srcset_style.map (fun p => ("srcset", AttrVal.raw p.1))).toList
          ++ (srcset_style.map (fun p => ("style", AttrVal.raw p.2))).toList
          ++ (if alt = "" then [("alt", AttrVal.raw alt)] else []))
  | .codeBlock language code attributes =>
    match hl code language with
    | .error e => .error (Halt.error e)
    | .ok (.plain plaintext) => do
      let st ← Writer.write_tag_with_attributes_on_new_line st "pre" attributes
      let st ← Writer.write_on_new_line st "<code>"
      let st ← Writer.write_on_new_line st plaintext
      Writer.write_on_new_line st "</code>\n</pre>"
    | .ok (.highlighted language highlighted) => do
      let st ← Writer.write_tag_with_attributes_on_new_line st "pre"
        (attributes ++ [("class", AttrVal.raw "highlight")])
      let st ← Writer.write_tag_with_attributes_on_new_line st "code"
        [("data-lang", AttrVal.raw language)]
      let st ← Writer.write_on_new_line st highlighted
      Writer.write_on_new_line st "</code>\n</pre>"
  | .math _kind math attributes => do
    let st ← Writer.write_tag_with_attributes_on_new_line st "span"
      (attributes ++ [("class", AttrVal.raw "math")])
    let st ← Writer.with_buf st (fun b => b ++ escapeHtmlBodyText math)
    Writer.write st "</span>"
  | .htmlBlock content attributes => do
    let st ← Writer.write_tag_with_attributes_on_new_line st "div" attributes
    let st ← Writer.write st content
    Writer.write st "</div>\n"
  | .htmlInline content attributes =>
    if attributes.isEmpty then Writer.write st content
    else do
      let st ← Writer.write_tag_with_attributes_on_new_line st "span" attributes
      let st ← Writer.write st content
      Writer.write st "</span>\n"
  | .tagWithAttribute tag attributes =>
    Writer.write_tag_with_attributes_on_new_line st tag attributes
  | .footnoteReference reference =>
    let reg := register_footnote_reference st.footnotes reference
    let st := { st with footnotes := reg.1 }
    do
      let st ← Writer.write st "<sup class=\"footnote-reference\">"
      let st ← Writer.write_tag_with_attributes st "a"
        [("role", AttrVal.raw "doc-noteref"), ("href", AttrVal.fmt ("#fn-" ++ toString reg.2))]
      let st ← Writer.with_buf st (fun b => b ++ toString reg.2)
      let st ← Writer.write st "</a>"
      Writer.write_on_new_line st "</sup>"

/-- The `while let Some(ev) = iter.next()` loop of `push_html`. -/
def runEvents (hl : Hl) (images : List (String × Images)) :
    WriterSt → List Event → Except Halt WriterSt
  | st, [] => .ok st
  | st, ev :: rest =>
    match step hl images st ev with
    | .ok st' => runEvents hl images st' rest
    | .error h => .error h

/-- Stable insertion used to model `footnotes.sort_by_key(|f| f.number)`. -/
def insertByNumber (f : Footnote) : List Footnote → List Footnote
  | [] => [f]
  | g :: rest =>
    if f.number ≤ g.number then f :: g :: rest else g :: insertByNumber f rest

def sortByNumber (l : List Footnote) : List Footnote :=
  l.foldr insertByNumber []

/-- One iteration of the end-of-document footnote loop: defined footnotes
paste their buffer, missing ones get an (empty, unclosed) placeholder
`<li>` tag plus a logged warning. -/
def emitFootnote (st : WriterSt) (f : Footnote) : Except Halt WriterSt :=
  if f.defined then Writer.with_buf st (fun b => b ++ f.buf)
  else
    Writer.write_tag_with_attributes_on_new_line st "li"
      [("class", AttrVal.raw "footnote-definition"),
       ("id", AttrVal.fmt ("fn-" ++ toString f.number)),
       ("role", AttrVal.raw "doc-footnote")]

def emitFootnotes : WriterSt → List Footnote → Except Halt WriterSt
  | st, [] => .ok st
  | st, f :: rest =>
    match emitFootnote st f with
    | .ok st' => emitFootnotes st' rest
    | .error h => .error h

/-- The footnote section emitted after the event loop (`ir_markup.rs` lines
825-860); the closing `</ol>\n</aside>\n` is pushed onto the main buffer
directly, bypassing the write target. -/
def finish (st : WriterSt) : Except Halt String :=
  if st.footnotes.isEmpty then .ok st.buf
  else
    match Writer.write st "<hr>\n<aside class=\"footnotes\" role=\"doc-endnotes\">\n<ol>\n" with
    | .error h => .error h
    | .ok st =>
      match emitFootnotes st (sortByNumber (st.footnotes.map (fun p => p.2))) with
      | .error h => .error h
      | .ok st => .ok (st.buf ++ "</ol>\n</aside>\n")

def initialWriter : WriterSt :=
  { buf := "", target := none, list_tightness := [], footnotes := [] }

/-- `push_html` (`ir_markup.rs` lines 695-863). -/
def push_html (hl : Hl) (images : List (String × Images)) (events : List Event) :
    Except Halt String :=
  match runEvents hl images initialWriter events with
  | .ok st => finish st
  | .error h => .error h

/-! ## Container-span iteration over IR events (`ir_markup.rs` lines 904-937)

`iter_container_from_inside` is a lazy iterator positioned just after a
consumed `Start`: it yields every event of the span and consumes (without
yielding) the matching `End`.  The model returns the yielded span together
with the events left in the underlying iterator afterwards; the depth
counter starts at 1 (the prepended synthetic `Start` of the source, already
`skip(1)`-ped away). -/
def iter_container_from_inside : Nat → List Event → List Event × List Event
  | _, [] => ([], [])
  | depth, ev :: rest =>
    match ev with
    | .start c a =>
      let p := iter_container_from_inside (depth + 1) rest
      (Event.start c a :: p.1, p.2)
    | .end_ c =>
      if depth ≤ 1 then ([], rest)
      else
        let p := iter_container_from_inside (depth - 1) rest
        (Event.end_ c :: p.1, p.2)
    | e =>
      let p := iter_container_from_inside depth rest
      (e :: p.1, p.2)

/-- Rust `str::trim_end` as used by `title_.truncate(title_.trim_end().len())`:
drop trailing whitespace characters. -/
def trimEnd (s : String) : String :=
  String.mk (s.data.reverse.dropWhile Char.isWhitespace).reverse

/-- `parse_and_render_title` (`ir_markup.rs` lines 939-984).  The source walks
a counting, cloning iterator over the buffer: it consumes the first event and,
if it is a `Section` start, consumes a second event; if that second event is a
level-1 `Heading` start it drains the heading span, renders it with
`push_html` (empty image table) and removes events `1..consumed` from the
buffer — and when the second event is *not* a level-1 heading start the
`events.drain(1..2)` still removes that second event.  Returns the optional
title together with the buffer contents after the call. -/
def parse_and_render_title (hl : Hl) (events : List Event) :
    Except Halt (Option String × List Event) :=
  match events with
  | Event.start (Container.sec sid) sattrs :: rest =>
    match rest with
    | Event.start (Container.heading 1 _) _ :: rest2 =>
      let p := iter_container_from_inside 1 rest2
      (match push_html hl [] p.1 with
       | .ok title => .ok (some (trimEnd title), Event.start (Container.sec sid) sattrs :: p.2)
       | .error h => .error h)
    | _ :: rest2 => .ok (none, Event.start (Container.sec sid) sattrs :: rest2)
    | [] => .ok (none, events)
  | _ => .ok (none, events)

/-! ## Internal-link rewriting (`ir_markup.rs` lines 986-1030)

`rewrite_link` slices the destination by UTF-8 *bytes*: `&old_link[0..2]`
panics when the string is shorter than two bytes or when byte offset 2 is not
a character boundary; when the slice exists, it equals `"~/"` exactly when the
first two characters are `'~'` and `'/'` (a multi-byte character's first byte
is ≥ `0xC2`, so a two-byte slice made of one two-byte character can never
compare equal to `"~/"`).  `str::find('#')` returns the byte index of the
first `'#'`, which (because `'#'` is ASCII and never a continuation byte)
splits the string at its first `'#'` character. -/

/-- Number of bytes of the UTF-8 encoding of a character (Rust
`char::len_utf8`). -/
def charUtf8Size (c : Char) : Nat :=
  if c.toNat < 0x80 then 1
  else if c.toNat < 0x800 then 2
  else if c.toNat < 0x10000 then 3
  else 4

/-- Rust `str::len`: the length of a string in UTF-8 bytes. -/
def utf8Len (s : String) : Nat :=
  (s.data.map charUtf8Size).sum

/-- Whether byte offset `i` of the UTF-8 encoding of the character list lies
on a character boundary (Rust `str::is_char_boundary`, offsets at or past the
end excluded — the caller checks the length separately). -/
def boundaryAux : List Char → Nat → Bool
  | _, 0 => true
  | [], _ + 1 => false
  | c :: cs, i + 1 =>
    if charUtf8Size c ≤ i + 1 then boundaryAux cs (i + 1 - charUtf8Size c) else false

def isCharBoundary (s : String) (i : Nat) : Bool :=
  boundaryAux s.data i

/-- An entry as seen by the link rewriter: `types::EntryMetaAndFrontMatter`
restricted to the one field read here, `meta.permalink`. -/
structure EntryRef where
  permalink : String
  deriving DecidableEq, Repr

/-- `rewrite_link` (`ir_markup.rs` lines 994-1013).  `none` is the
out-of-bounds / non-boundary panic of `&old_link[0..2]`; `some (.error …)` is
the `anyhow::bail!` for an unknown canonical name; `some (.ok (dest, e?))` is
the rewritten (or untouched) destination plus the resolved entry, if any. -/
def rewrite_link (old_link : String) (entries_by_name : List (String × EntryRef)) :
    Option (Except String (String × Option EntryRef)) :=
  if ¬ (2 ≤ utf8Len old_link ∧ isCharBoundary old_link 2 = true) then none
  else if old_link.data.take 2 = ['~', '/'] then
    let tail := old_link.data.drop 2
    let link := String.mk (tail.takeWhile (fun c => c ≠ '#'))
    let anchor := String.mk (tail.dropWhile (fun c => c ≠ '#'))
    match lookupMap entries_by_name link with
    | some entry => some (.ok (entry.permalink ++ anchor, some entry))
    | none => some (.error ("Unknown internal link: " ++ old_link))
  else some (.ok (old_link, none))

/-- `rewrite_and_emit_internal_links` (`ir_markup.rs` lines 988-1030): walk
the event buffer; each `Link` start has its destination rewritten in place,
and each successfully resolved internal link pushes its entry onto the result
list.  Every other event — including `Image` events — is left untouched.
`none` models a propagated panic, `some (.error …)` the propagated
`anyhow::Error`. -/
def rewrite_and_emit_internal_links (entries_by_name : List (String × EntryRef)) :
    List Event → Option (Except String (List Event × List EntryRef))
  | [] => some (.ok ([], []))
  | ev :: rest =>
    match ev with
    | .start (.link destination) attributes =>
      match rewrite_link destination entries_by_name with
      | none => none
      | some (.error e) => some (.error e)
      | some (.ok (newDest, entryOpt)) =>
        match rewrite_and_emit_internal_links entries_by_name rest with
        | none => none
        | some (.error e) => some (.error e)
        | some (.ok (evs, links)) =>
          some (.ok (Event.start (.link newDest) attributes :: evs, entryOpt.toList ++ links))
    | e =>
      match rewrite_and_emit_internal_links entries_by_name rest with
      | none => none
      | some (.error err) => some (.error err)
      | some (.ok (evs, links)) => some (.ok (e :: evs, links))

/-! ## The Djot adapter (`src/djot.rs`)

The jotdown event vocabulary is modelled for the containers whose translation
arms the theorems below exercise (blockquote, paragraph, link, span, strong,
emphasis, verbatim, raw inline/block) plus every leaf event of `djot_to_ir`;
each arm is transcribed from the corresponding arm of the source. -/

inductive JdContainer where
  | blockquote
  | paragraph
  | link (destination : String)
  | span
  | strong
  | emphasis
  | verbatim
  | rawInline (format : String)
  | rawBlock (format : String)
  deriving DecidableEq, Repr

inductive JdEvent where
  | start (container : JdContainer) (attributes : Attrs)
  | end_ (container : JdContainer)
  | str (s : String)
  | symbol (s : String)
  | softbreak
  | hardbreak
  | nonBreakingSpace
  | escape
  | blankline
  | ellipsis
  | enDash
  | emDash
  | leftSingleQuote
  | leftDoubleQuote
  | rightSingleQuote
  | rightDoubleQuote
  | footnoteReference (reference : String)
  | thematicBreak (attributes : Attrs)
  deriving DecidableEq, Repr

/-- `iter_container_from_inside` of `djot.rs` (lines 11-38): depth starts at 1
for the prepended synthetic start; returns the yielded span and the events
remaining after the consumed matching `End`. -/
def jd_iter_container_from_inside : Nat → List JdEvent → List JdEvent × List JdEvent
  | _, [] => ([], [])
  | depth, ev :: rest =>
    match ev with
    | .start c a =>
      let p := jd_iter_container_from_inside (depth + 1) rest
      (JdEvent.start c a :: p.1, p.2)
    | .end_ c =>
      if depth ≤ 1 then ([], rest)
      else
        let p := jd_iter_container_from_inside (depth - 1) rest
        (JdEvent.end_ c :: p.1, p.2)
    | e =>
      let p := jd_iter_container_from_inside depth rest
      (e :: p.1, p.2)

/-- `render_to_raw_string` (`djot.rs` lines 40-66): concatenate the textual
leaf events of a span, dropping everything else. -/
def render_to_raw_string (events : List JdEvent) : String :=
  events.foldl
    (fun acc ev =>
      match ev with
      | .str val => acc ++ val
      | .ellipsis => acc ++ "…"
      | .enDash => acc ++ "–"
      | .emDash => acc ++ "—"
      | .nonBreakingSpace => acc ++ " "
      | .symbol val => acc ++ ":" ++ val ++ ":"
      | _ => acc)
    ""

/-- `djot_to_ir` (`djot.rs` lines 102-591), written with explicit fuel so that
the definition is structurally recursive (the raw-container arms advance the
shared cursor past a whole span mid-translation, as the coroutine in the
source does).  The fuel only ever runs out on fuel below `length + 1`; the
wrapper `djot_to_ir` supplies sufficient fuel, and `djot_to_ir_fuel_congr`
below shows the result is fuel-independent from that point on.  `none` models
the source's `unreachable!()` panic arms (an `End` for a raw container that
was never opened). -/
def djot_to_ir_fuel : Nat → List JdEvent → Option (List Event)
  | 0, _ => none
  | _ + 1, [] => some []
  | fuel + 1, ev :: rest =>
    match ev with
    | .start container attributes =>
      match container with
      | .blockquote =>
        (djot_to_ir_fuel fuel rest).map (Event.start .blockquote attributes :: ·)
      | .paragraph =>
        (djot_to_ir_fuel fuel rest).map (Event.start .paragraph attributes :: ·)
      | .link destination =>
        (djot_to_ir_fuel fuel rest).map (Event.start (.link destination) attributes :: ·)
      | .span =>
        (djot_to_ir_fuel fuel rest).map (Event.start (.other "span") attributes :: ·)
      | .strong =>
        (djot_to_ir_fuel fuel rest).map (Event.start (.other "strong") attributes :: ·)
      | .emphasis =>
        (djot_to_ir_fuel fuel rest).map (Event.start (.other "em") attributes :: ·)
      | .verbatim =>
        (djot_to_ir_fuel fuel rest).map (Event.start (.other "code") attributes :: ·)
      | .rawInline format =>
        let p := jd_iter_container_from_inside 1 rest
        let content := render_to_raw_string p.1
        (djot_to_ir_fuel fuel p.2).map (fun irs =>
          (if format = "html" ∨ format = "HTML"
           then [Event.htmlInline content attributes] else []) ++ irs)
      | .rawBlock format =>
        let p := jd_iter_container_from_inside 1 rest
        let content := render_to_raw_string p.1
        (djot_to_ir_fuel fuel p.2).map (fun irs =>
          (if format = "html" ∨ format = "HTML"
           then [Event.htmlBlock content attributes] else []) ++ irs)
    | .end_ container =>
      match container with
      | .blockquote => (djot_to_ir_fuel fuel rest).map (Event.end_ .blockquote :: ·)
      | .paragraph => (djot_to_ir_fuel fuel rest).map (Event.end_ .paragraph :: ·)
      | .link _ => (djot_to_ir_fuel fuel rest).map (Event.end_ .link :: ·)
      | .span => (djot_to_ir_fuel fuel rest).map (Event.end_ (.other "span") :: ·)
      | .strong => (djot_to_ir_fuel fuel rest).map (Event.end_ (.other "strong") :: ·)
      | .emphasis => (djot_to_ir_fuel fuel rest).map (Event.end_ (.other "em") :: ·)
      | .verbatim => (djot_to_ir_fuel fuel rest).map (Event.end_ (.other "code") :: ·)
      | .rawInline _ => none
      | .rawBlock _ => none
    | .str s => (djot_to_ir_fuel fuel rest).map (Event.str s :: ·)
    | .symbol s => (djot_to_ir_fuel fuel rest).map (Event.str s :: ·)
    | .softbreak => (djot_to_ir_fuel fuel rest).map (Event.str "\n" :: ·)
    | .hardbreak => (djot_to_ir_fuel fuel rest).map (Event.htmlInline "<br />" [] :: ·)
    | .nonBreakingSpace =>
      (djot_to_ir_fuel fuel rest).map (Event.htmlInline "&nbsp;" [] :: ·)
    | .escape => djot_to_ir_fuel fuel rest
    | .blankline => djot_to_ir_fuel fuel rest
    | .ellipsis => (djot_to_ir_fuel fuel rest).map (Event.str "…" :: ·)
    | .emDash => (djot_to_ir_fuel fuel rest).map (Event.str "–" :: ·)
    | .enDash => (djot_to_ir_fuel fuel rest).map (Event.str "—" :: ·)
    | .leftSingleQuote => (djot_to_ir_fuel fuel rest).map (Event.str "‘" :: ·)
    | .leftDoubleQuote => (djot_to_ir_fuel fuel rest).map (Event.str "“" :: ·)
    | .rightSingleQuote => (djot_to_ir_fuel fuel rest).map (Event.str "’" :: ·)
    | .rightDoubleQuote => (djot_to_ir_fuel fuel rest).map (Event.str "”" :: ·)
    | .footnoteReference reference =>
      (djot_to_ir_fuel fuel rest).map (Event.footnoteReference reference :: ·)
    | .thematicBreak attributes =>
      (djot_to_ir_fuel fuel rest).map (Event.tagWithAttribute "hr" attributes :: ·)

def djot_to_ir (events : List JdEvent) : Option (List Event) :=
  djot_to_ir_fuel (events.length + 1) events

/-- Whether a span of jotdown events is balanced relative to a starting
nesting depth: every `End` closes an open `Start` and the depth returns to
zero at the end of the span. -/
def balancedJdAux : Nat → List JdEvent → Bool
  | depth, [] => depth == 0
  | depth, e :: rest =>
    match e with
    | .start _ _ => balancedJdAux (depth + 1) rest
    | .end_ _ => if depth = 0 then false else balancedJdAux (depth - 1) rest
    | _ => balancedJdAux depth rest

/-! ## The summary/rest split -/

/-- Modelled from the spec: the split performed by `djot::render` (the
function called at `src/main.rs` lines 276-289; its body is not among the
provided sources).  Per the spec, the rendered document is split at a
paragraph whose sole literal content is the marker string `-more-`; this
locates that marker paragraph in the event buffer. -/
def splitAtMore : List Event → Option (List Event × List Event)
  | .start .paragraph _ :: .str "-more-" :: .end_ .paragraph :: rest => some ([], rest)
  | e :: rest => (splitAtMore rest).map (fun p => (e :: p.1, p.2))
  | [] => none

/-- Whether a list of events begins with a paragraph whose sole literal
content is the marker string `-more-`. -/
def isMoreMarker : List Event → Bool
  | .start .paragraph _ :: .str "-more-" :: .end_ .paragraph :: _ => true
  | _ => false

/-- Modelled from the spec: `djot::render` — "Output: `(summary_html,
rest_html)` split at a paragraph whose sole literal content is the marker
string `-more-`; if no such paragraph exists, `rest_html` is empty and all
content is in `summary_html`."  The two halves are rendered with the
source-modelled `push_html`. -/
def render (hl : Hl) (images : List (String × Images)) (events : List Event) :
    Except Halt (String × String) :=
  match splitAtMore events with
  | none => (push_html hl images events).map (fun s => (s, ""))
  | some p =>
    match push_html hl images p.1 with
    | .error h => .error h
    | .ok summary =>
      match push_html hl images p.2 with
      | .error h => .error h
      | .ok rest => .ok (summary, rest)

/-! ## Footnote-numbering bookkeeping used by the claims -/

/-- The footnote labels an event registers with the writer, in registration
order: a `FootnoteReference` event and a `Footnote` definition start each
register their label. -/
def fnLabels1 (ev : Event) : List String :=
  match ev with
  | .footnoteReference r => [r]
  | .start (.footnote label) _ => [label]
  | _ => []

def fnLabels (events : List Event) : List String :=
  events.foldr (fun e acc => fnLabels1 e ++ acc) []

/-- The distinct labels of a document in first-seen order. -/
def firstSeen (ls : List String) : List String :=
  ls.foldl (fun acc l => if l ∈ acc then acc else acc ++ [l]) []

/-- The label/number skeleton of the footnote registry (content buffers and
definition states stripped). -/
def fnSkeleton (fns : List (String × Footnote)) : List (String × Nat) :=
  fns.map (fun p => (p.1, p.2.number))

/-- The effect of registering one label on the registry skeleton: a fresh
label is appended with number `size + 1`, a known label changes nothing. -/
def regSkel (skel : List (String × Nat)) (label : String) : List (String × Nat) :=
  if label ∈ skel.map Prod.fst then skel else skel ++ [(label, skel.length + 1)]

def lookupFnNumber (fns : List (String × Footnote)) (label : String) : Option Nat :=
  (lookupMap fns label).map (fun f => f.number)

/-- A trivial highlighter used to instantiate theorems at concrete inputs. -/
def hl0 : Hl := fun code _ => .ok (.plain code)

/-- The footnote scenario of the claims: references to labels `"a"` then
`"b"`, followed by the definitions in the opposite order `"b"` then `"a"`. -/
def c1Scenario : List Event :=
  [.footnoteReference "a", .footnoteReference "b",
   .start (.footnote "b") [], .str "B", .end_ .footnote,
   .start (.footnote "a") [], .str "A", .end_ .footnote]

/-! # Theorems

General lemmas first, then one theorem per claim (with witnesses and
counterexamples where required). -/

/-! ## Attribute-set lemmas (claim C2) -/

theorem keys_replaceFirst (k : String) (v : AttrVal) :
    ∀ attrs : Attrs, (Attributes.replaceFirst k v attrs).map Prod.fst = attrs.map Prod.fst := by
  intro attrs
  induction attrs with
  | nil => rfl
  | cons p t ih =>
    obtain ⟨k', v'⟩ := p
    by_cases h : k' = k <;> simp [Attributes.replaceFirst, h, ih]

theorem length_replaceFirst (k : String) (v : AttrVal) (attrs : Attrs) :
    (Attributes.replaceFirst k v attrs).length = attrs.length := by
  have h := congrArg List.length (keys_replaceFirst k v attrs)
  simpa using h

theorem mem_keys_insertSorted (k : String) (v : AttrVal) (a : String) :
    ∀ attrs : Attrs,
      (a ∈ (Attributes.insertSorted k v attrs).map Prod.fst ↔
        a = k ∨ a ∈ attrs.map Prod.fst) := by
  intro attrs
  induction attrs with
  | nil => simp [Attributes.insertSorted]
  | cons p t ih =>
    obtain ⟨k', v'⟩ := p
    by_cases h : k' > k
    · simp [Attributes.insertSorted, h]
    · simp only [Attributes.insertSorted, if_neg h, List.map_cons, List.mem_cons, ih]
      tauto

theorem sorted_insertSorted (k : String) (v : AttrVal) :
    ∀ attrs : Attrs, List.Sorted (· < ·) (attrs.map Prod.fst) →
      k ∉ attrs.map Prod.fst →
      List.Sorted (· < ·) ((Attributes.insertSorted k v attrs).map Prod.fst) := by
  intro attrs
  induction attrs with
  | nil => intro _ _; simp [Attributes.insertSorted]
  | cons p t ih =>
    obtain ⟨k', v'⟩ := p
    intro hs hk
    simp only [List.map_cons, List.sorted_cons] at hs
    obtain ⟨hlt, hst⟩ := hs
    simp only [List.map_cons, List.mem_cons, not_or] at hk
    obtain ⟨hkk', hkt⟩ := hk
    by_cases h : k' > k
    · simp only [Attributes.insertSorted, if_pos h, List.map_cons, List.sorted_cons]
      refine ⟨?_, ?_, hst⟩
      · intro b hb
        rcases List.mem_cons.mp hb with hb | hb
        · exact hb ▸ h
        · exact lt_trans h (hlt b hb)
      · exact hlt
    · have hk'k : k' < k := by
        rcases lt_trichotomy k' k with h1 | h1 | h1
        · exact h1
        · exact absurd h1.symm hkk'
        · exact absurd h1 h
      simp only [Attributes.insertSorted, if_neg h, List.map_cons, List.sorted_cons]
      refine ⟨?_, ih hst hkt⟩
      intro b hb
      rcases (mem_keys_insertSorted k v b t).mp hb with hb | hb
      · exact hb ▸ hk'k
      · exact hlt b hb

theorem key_mem_of_find?_isSome (k : String) (attrs : Attrs) :
    (attrs.find? (fun p => p.1 = k)).isSome = true ↔ k ∈ attrs.map Prod.fst := by
  rw [List.find?_isSome]
  constructor
  · rintro ⟨p, hp, hpk⟩
    exact List.mem_map.mpr ⟨p, hp, of_decide_eq_true hpk⟩
  · rintro hmem
    obtain ⟨p, hp, hpk⟩ := List.mem_map.mp hmem
    exact ⟨p, hp, decide_eq_true hpk⟩

theorem sorted_push (attrs : Attrs) (k : String) (v : AttrVal)
    (hs : List.Sorted (· < ·) (attrs.map Prod.fst)) :
    List.Sorted (· < ·) ((Attributes.push attrs k v).map Prod.fst) := by
  unfold Attributes.push
  by_cases h : (attrs.find? (fun p => p.1 = k)).isSome = true
  · rw [if_pos h, keys_replaceFirst]
    exact hs
  · rw [if_neg h]
    refine sorted_insertSorted k v attrs hs ?_
    intro hmem
    exact h ((key_mem_of_find?_isSome k attrs).mpr hmem)

theorem sorted_pushList_from (ps : List (String × AttrVal)) :
    ∀ attrs : Attrs, List.Sorted (· < ·) (attrs.map Prod.fst) →
      List.Sorted (· < ·)
        ((ps.foldl (fun acc p => Attributes.push acc p.1 p.2) attrs).map Prod.fst) := by
  induction ps with
  | nil => intro attrs hs; exact hs
  | cons p t ih =>
    intro attrs hs
    exact ih (Attributes.push attrs p.1 p.2) (sorted_push attrs p.1 p.2 hs)

theorem mem_insertSorted (k : String) (v : AttrVal) (q : String × AttrVal) :
    ∀ attrs : Attrs,
      (q ∈ Attributes.insertSorted k v attrs ↔ q = (k, v) ∨ q ∈ attrs) := by
  intro attrs
  induction attrs with
  | nil => simp [Attributes.insertSorted]
  | cons p t ih =>
    obtain ⟨k', v'⟩ := p
    by_cases h : k' > k
    · simp [Attributes.insertSorted, h]
    · simp only [Attributes.insertSorted, if_neg h, List.mem_cons, ih]
      tauto

theorem mem_replaceFirst (k : String) (v : AttrVal) (a : String) (b : AttrVal) :
    ∀ attrs : Attrs, (attrs.map Prod.fst).Nodup → k ∈ attrs.map Prod.fst →
      ((a, b) ∈ Attributes.replaceFirst k v attrs ↔
        (a = k ∧ b = v) ∨ ((a, b) ∈ attrs ∧ a ≠ k)) := by
  intro attrs
  induction attrs with
  | nil => simp
  | cons p t ih =>
    obtain ⟨k', v'⟩ := p
    intro hnd hk
    simp only [List.map_cons, List.nodup_cons] at hnd
    obtain ⟨hk't, hndt⟩ := hnd
    by_cases h : k' = k
    · subst h
      have hre : Attributes.replaceFirst k' v ((k', v') :: t) = (k', v) :: t := by
        simp [Attributes.replaceFirst]
      rw [hre]
      constructor
      · intro hq
        rcases List.mem_cons.mp hq with hq | hq
        · exact Or.inl ⟨congrArg Prod.fst hq, congrArg Prod.snd hq⟩
        · have hak : a ≠ k' := fun hEq => hk't (hEq ▸ List.mem_map.mpr ⟨(a, b), hq, rfl⟩)
          exact Or.inr ⟨List.mem_cons_of_mem _ hq, hak⟩
      · rintro (⟨hak, hbv⟩ | ⟨hq, hak⟩)
        · subst hak; subst hbv; exact List.mem_cons_self _ _
        · rcases List.mem_cons.mp hq with hq | hq
          · exact absurd (congrArg Prod.fst hq) hak
          · exact List.mem_cons_of_mem _ hq
    · have hkt : k ∈ t.map Prod.fst := by
        rcases List.mem_cons.mp hk with hk | hk
        · exact absurd hk.symm h
        · exact hk
      have hre : Attributes.replaceFirst k v ((k', v') :: t) =
          (k', v') :: Attributes.replaceFirst k v t := by
        simp [Attributes.replaceFirst, h]
      rw [hre]
      constructor
      · intro hq
        rcases List.mem_cons.mp hq with hq | hq
        · have hak : a ≠ k := fun hEq => h ((congrArg Prod.fst hq).symm.trans hEq)
          exact Or.inr ⟨hq ▸ List.mem_cons_self _ _, hak⟩
        · rcases (ih hndt hkt).mp hq with hq | ⟨hq, hak⟩
          · exact Or.inl hq
          · exact Or.inr ⟨List.mem_cons_of_mem _ hq, hak⟩
      · rintro (⟨hak, hbv⟩ | ⟨hq, hak⟩)
        · exact List.mem_cons_of_mem _ ((ih hndt hkt).mpr (Or.inl ⟨hak, hbv⟩))
        · rcases List.mem_cons.mp hq with hq | hq
          · exact hq ▸ List.mem_cons_self _ _
          · exact List.mem_cons_of_mem _ ((ih hndt hkt).mpr (Or.inr ⟨hq, hak⟩))

theorem mem_push (attrs : Attrs) (k : String) (v : AttrVal) (a : String) (b : AttrVal)
    (hs : List.Sorted (· < ·) (attrs.map Prod.fst)) :
    ((a, b) ∈ Attributes.push attrs k v ↔
      (a = k ∧ b = v) ∨ ((a, b) ∈ attrs ∧ a ≠ k)) := by
  have hnd : (attrs.map Prod.fst).Nodup := hs.nodup
  unfold Attributes.push
  by_cases h : (attrs.find? (fun p => p.1 = k)).isSome = true
  · rw [if_pos h]
    exact mem_replaceFirst k v a b attrs hnd ((key_mem_of_find?_isSome k attrs).mp h)
  · rw [if_neg h]
    have hk : k ∉ attrs.map Prod.fst := fun hmem => h ((key_mem_of_find?_isSome k attrs).mpr hmem)
    rw [mem_insertSorted]
    constructor
    · rintro (hq | hq)
      · exact Or.inl ⟨congrArg Prod.fst hq, congrArg Prod.snd hq⟩
      · refine Or.inr ⟨hq, ?_⟩
        intro hak
        exact hk (hak ▸ List.mem_map.mpr ⟨(a, b), hq, rfl⟩)
    · rintro (⟨hak, hbv⟩ | ⟨hq, _⟩)
      · exact Or.inl (by rw [hak, hbv])
      · exact Or.inr hq

theorem mem_foldl_push (ps : List (String × AttrVal)) :
    ∀ attrs : Attrs, List.Sorted (· < ·) (attrs.map Prod.fst) →
      (ps.map Prod.fst).Nodup →
      ∀ (a : String) (b : AttrVal),
        ((a, b) ∈ ps.foldl (fun acc p => Attributes.push acc p.1 p.2) attrs ↔
          (if a ∈ ps.map Prod.fst then (a, b) ∈ ps else (a, b) ∈ attrs)) := by
  induction ps with
  | nil => intro attrs _ _ a b; simp
  | cons p t ih =>
    obtain ⟨k, v⟩ := p
    intro attrs hs hnd a b
    simp only [List.map_cons, List.nodup_cons] at hnd
    obtain ⟨hkt, hndt⟩ := hnd
    have hstep := sorted_push attrs k v hs
    have := ih (Attributes.push attrs k v) hstep hndt a b
    rw [List.foldl_cons]
    rw [this]
    by_cases hat : a ∈ t.map Prod.fst
    · have hak : a ≠ k := fun h => hkt (h ▸ hat)
      rw [if_pos hat, if_pos (by simp [hat])]
      simp only [List.mem_cons]
      constructor
      · exact fun h => Or.inr h
      · rintro (hq | hq)
        · exact absurd (congrArg Prod.fst hq) hak
        · exact hq
    · rw [if_neg hat]
      by_cases hak : a = k
      · subst hak
        rw [if_pos (by simp), mem_push attrs a v a b hs]
        constructor
        · rintro (⟨_, hbv⟩ | ⟨_, hne⟩)
          · subst hbv; exact List.mem_cons_self _ _
          · exact absurd rfl hne
        · intro hq
          rcases List.mem_cons.mp hq with hq | hq
          · exact Or.inl ⟨rfl, congrArg Prod.snd hq⟩
          · exact absurd (List.mem_map.mpr ⟨(a, b), hq, rfl⟩) hat
      · rw [if_neg (by simp [hak, hat]), mem_push attrs k v a b hs]
        constructor
        · rintro (⟨h1, _⟩ | ⟨hq, _⟩)
          · exact absurd h1 hak
          · exact hq
        · intro hq
          exact Or.inr ⟨hq, hak⟩

theorem eq_of_sorted_of_mem :
    ∀ l₁ l₂ : Attrs, List.Sorted (· < ·) (l₁.map Prod.fst) →
      List.Sorted (· < ·) (l₂.map Prod.fst) →
      (∀ q : String × AttrVal, q ∈ l₁ ↔ q ∈ l₂) → l₁ = l₂ := by
  intro l₁
  induction l₁ with
  | nil =>
    intro l₂ _ _ hmem
    cases l₂ with
    | nil => rfl
    | cons q t => exact absurd ((hmem q).mpr (List.mem_cons_self q t)) (List.not_mem_nil q)
  | cons p t ih =>
    intro l₂ hs₁ hs₂ hmem
    cases l₂ with
    | nil => exact absurd ((hmem p).mp (List.mem_cons_self p t)) (List.not_mem_nil p)
    | cons q t₂ =>
      simp only [List.map_cons, List.sorted_cons] at hs₁ hs₂
      obtain ⟨hlt₁, hst₁⟩ := hs₁
      obtain ⟨hlt₂, hst₂⟩ := hs₂
      have hpq : p = q := by
        have hp₂ := (hmem p).mp (List.mem_cons_self p t)
        have hq₁ := (hmem q).mpr (List.mem_cons_self q t₂)
        rcases List.mem_cons.mp hp₂ with h | hpt₂
        · exact h
        · rcases List.mem_cons.mp hq₁ with h | hqt₁
          · exact h.symm
          · have h1 : q.1 < p.1 := hlt₂ p.1 (List.mem_map.mpr ⟨p, hpt₂, rfl⟩)
            have h2 : p.1 < q.1 := hlt₁ q.1 (List.mem_map.mpr ⟨q, hqt₁, rfl⟩)
            exact absurd (lt_trans h1 h2) (lt_irrefl q.1)
      subst hpq
      have htails : ∀ q : String × AttrVal, q ∈ t ↔ q ∈ t₂ := by
        intro r
        constructor
        · intro hr
          rcases List.mem_cons.mp ((hmem r).mp (List.mem_cons_of_mem p hr)) with h | h
          · subst h
            exact absurd (hlt₁ r.1 (List.mem_map.mpr ⟨r, hr, rfl⟩)) (lt_irrefl r.1)
          · exact h
        · intro hr
          rcases List.mem_cons.mp ((hmem r).mpr (List.mem_cons_of_mem p hr)) with h | h
          · subst h
            exact absurd (hlt₂ r.1 (List.mem_map.mpr ⟨r, hr, rfl⟩)) (lt_irrefl r.1)
          · exact h
      rw [ih t₂ hst₁ hst₂ htails]

theorem find?_replaceFirst (k : String) (v : AttrVal) :
    ∀ attrs : Attrs, k ∈ attrs.map Prod.fst →
      (Attributes.replaceFirst k v attrs).find? (fun p => p.1 = k) = some (k, v) := by
  intro attrs
  induction attrs with
  | nil => simp
  | cons p t ih =>
    obtain ⟨k', v'⟩ := p
    intro hk
    by_cases h : k' = k
    · subst h
      have hre : Attributes.replaceFirst k' v ((k', v') :: t) = (k', v) :: t := by
        simp [Attributes.replaceFirst]
      rw [hre, List.find?_cons_of_pos _ (by simp)]
    · have hkt : k ∈ t.map Prod.fst := by
        rcases List.mem_cons.mp hk with hk | hk
        · exact absurd hk.symm h
        · exact hk
      have hre : Attributes.replaceFirst k v ((k', v') :: t) =
          (k', v') :: Attributes.replaceFirst k v t := by
        simp [Attributes.replaceFirst, h]
      rw [hre, List.find?_cons_of_neg _ (by simp [h])]
      exact ih hkt

theorem mem_pushList (ps : List (String × AttrVal)) (hnd : (ps.map Prod.fst).Nodup)
    (a : String) (b : AttrVal) :
    ((a, b) ∈ Attributes.pushList ps ↔ (a, b) ∈ ps) := by
  have h := mem_foldl_push ps [] (by simp) hnd a b
  rw [Attributes.pushList, h]
  by_cases hm : a ∈ ps.map Prod.fst
  · rw [if_pos hm]
  · rw [if_neg hm]
    simp only [List.not_mem_nil, false_iff]
    intro hq
    exact hm (List.mem_map.mpr ⟨(a, b), hq, rfl⟩)

/-- Claim C2: for every sequence of `Attributes::push(key, value)` calls,
iterating the attribute set yields keys in lexicographic order; re-pushing an
already-present key overwrites only that key's value in place and never
changes its iteration position or the set's length; two attribute sets
holding the same key/value pairs inserted in different orders iterate
identically. -/
theorem c2_attributes_deterministic :
    (∀ ps : List (String × AttrVal),
        List.Sorted (· < ·) ((Attributes.pushList ps).map Prod.fst))
  ∧ (∀ (attrs : Attrs) (k : String) (v : AttrVal),
        k ∈ attrs.map Prod.fst →
          (Attributes.push attrs k v).map Prod.fst = attrs.map Prod.fst ∧
          (Attributes.push attrs k v).length = attrs.length ∧
          (Attributes.push attrs k v).find? (fun p => p.1 = k) = some (k, v))
  ∧ (∀ ps₁ ps₂ : List (String × AttrVal),
        ps₁.Perm ps₂ → (ps₁.map Prod.fst).Nodup →
          Attributes.pushList ps₁ = Attributes.pushList ps₂) := by
  refine ⟨?_, ?_, ?_⟩
  · intro ps
    exact sorted_pushList_from ps [] (by simp)
  · intro attrs k v hk
    have hfind : (attrs.find? (fun p => p.1 = k)).isSome = true :=
      (key_mem_of_find?_isSome k attrs).mpr hk
    have hpush : Attributes.push attrs k v = Attributes.replaceFirst k v attrs := by
      rw [Attributes.push, if_pos hfind]
    rw [hpush]
    exact ⟨keys_replaceFirst k v attrs, length_replaceFirst k v attrs,
      find?_replaceFirst k v attrs hk⟩
  · intro ps₁ ps₂ hperm hnd
    have hnd₂ : (ps₂.map Prod.fst).Nodup := ((hperm.map Prod.fst).nodup_iff).mp hnd
    refine eq_of_sorted_of_mem _ _ (sorted_pushList_from ps₁ [] (by simp))
      (sorted_pushList_from ps₂ [] (by simp)) ?_
    intro q
    obtain ⟨a, b⟩ := q
    rw [mem_pushList ps₁ hnd a b, mem_pushList ps₂ hnd₂ a b]
    exact hperm.mem_iff

/-- Witness for C2 at concrete inputs: re-pushing key `"a"` keeps the key
list, and two insertion orders of the same pairs produce the same attribute
set. -/
theorem c2_attributes_deterministic_witness :
    (Attributes.push [("a", AttrVal.raw "x")] "a" (AttrVal.raw "y")).map Prod.fst = ["a"] ∧
    Attributes.pushList [("b", AttrVal.raw "1"), ("a", AttrVal.raw "2")] =
      Attributes.pushList [("a", AttrVal.raw "2"), ("b", AttrVal.raw "1")] := by
  constructor
  · have h := c2_attributes_deterministic.2.1 [("a", AttrVal.raw "x")] "a" (AttrVal.raw "y")
      (by decide)
    rw [h.1]
    decide
  · exact c2_attributes_deterministic.2.2
      [("b", AttrVal.raw "1"), ("a", AttrVal.raw "2")]
      [("a", AttrVal.raw "2"), ("b", AttrVal.raw "1")]
      (by decide) (by decide)

/-! ## Footnote-registry skeleton lemmas (claim C1)

The skeleton (`fnSkeleton`) of the registry — labels with their numbers —
depends only on the sequence of registration calls; every buffer write
preserves it. -/

theorem exceptBind_ok {α β ε : Type} (a : α) (f : α → Except ε β) :
    (Except.ok a >>= f : Except ε β) = f a := rfl

theorem exceptBind_err {α β ε : Type} (e : ε) (f : α → Except ε β) :
    (Except.error e >>= f : Except ε β) = .error e := rfl

/-- Operations on the writer that cannot change the label/number skeleton of
the footnote registry. -/
def SkelPres (op : WriterSt → Except Halt WriterSt) : Prop :=
  ∀ st st', op st = .ok st' → fnSkeleton st'.footnotes = fnSkeleton st.footnotes

theorem skel_map_buf (label : String) (f : String → String) :
    ∀ fns : List (String × Footnote),
      fnSkeleton (fns.map (fun p =>
        if p.1 = label then (p.1, { p.2 with buf := f p.2.buf }) else p)) = fnSkeleton fns := by
  intro fns
  induction fns with
  | nil => rfl
  | cons p t ih =>
    obtain ⟨l, fn⟩ := p
    by_cases h : l = label <;> simp [fnSkeleton, h] at ih ⊢ <;> exact ih

theorem skelPres_with_buf (f : String → String) :
    SkelPres (fun st => Writer.with_buf st f) := by
  intro st st' h
  dsimp only at h
  unfold Writer.with_buf at h
  cases hT : st.target with
  | none =>
    rw [hT] at h
    injection h with h
    rw [← h]
  | some label =>
    rw [hT] at h
    dsimp only at h
    by_cases hin : (st.footnotes.find? (fun p => p.1 = label)).isSome = true
    · rw [if_pos hin] at h
      injection h with h
      rw [← h]
      exact skel_map_buf label f st.footnotes
    · rw [if_neg hin] at h
      exact absurd h (by simp)

theorem skelPres_write (s : String) : SkelPres (fun st => Writer.write st s) :=
  skelPres_with_buf (fun b => b ++ s)

theorem skelPres_write_on_new_line (s : String) :
    SkelPres (fun st => Writer.write_on_new_line st s) :=
  skelPres_with_buf (fun b => newlineTerminated b ++ s)

theorem skelPres_write_tag (tag : String) (attrs : List (String × AttrVal)) :
    SkelPres (fun st => Writer.write_tag_with_attributes st tag attrs) :=
  skelPres_with_buf (fun b => b ++ tagText tag attrs)

theorem skelPres_write_tag_nl (tag : String) (attrs : List (String × AttrVal)) :
    SkelPres (fun st => Writer.write_tag_with_attributes_on_new_line st tag attrs) :=
  skelPres_with_buf (fun b => newlineTerminated b ++ tagText tag attrs)

theorem skelPres_bind {op1 op2 : WriterSt → Except Halt WriterSt}
    (h1 : SkelPres op1) (h2 : SkelPres op2) :
    SkelPres (fun st => op1 st >>= op2) := by
  intro st st' h
  dsimp only at h
  cases hop : op1 st with
  | error e => rw [hop, exceptBind_err] at h; exact absurd h (by simp)
  | ok st1 =>
    rw [hop, exceptBind_ok] at h
    exact (h2 st1 st' h).trans (h1 st st1 hop)

theorem fnSkeleton_keys (fns : List (String × Footnote)) :
    (fnSkeleton fns).map Prod.fst = fns.map Prod.fst := by
  unfold fnSkeleton
  rw [List.map_map]
  rfl

theorem mem_keys_of_find?_some {fns : List (String × Footnote)} {label : String}
    {p : String × Footnote} (h : fns.find? (fun q => q.1 = label) = some p) :
    label ∈ fns.map Prod.fst := by
  have hmem := List.mem_of_find?_eq_some h
  have hp : p.1 = label := by
    have hq := List.find?_some h
    simpa using hq
  exact hp ▸ List.mem_map.mpr ⟨p, hmem, rfl⟩

theorem not_mem_keys_of_find?_none {fns : List (String × Footnote)} {label : String}
    (h : fns.find? (fun q => q.1 = label) = none) :
    label ∉ fns.map Prod.fst := by
  intro hmem
  obtain ⟨p, hp, hpl⟩ := List.mem_map.mp hmem
  have := List.find?_eq_none.mp h p hp
  simp [hpl] at this

theorem skel_map_defined (label : String) :
    ∀ fns : List (String × Footnote),
      fnSkeleton (fns.map (fun q =>
        if q.1 = label then (q.1, { q.2 with defined := true }) else q)) = fnSkeleton fns := by
  intro fns
  induction fns with
  | nil => rfl
  | cons p t ih =>
    obtain ⟨l, fn⟩ := p
    by_cases h : l = label <;> simp [fnSkeleton, h] at ih ⊢ <;> exact ih

theorem skel_register_reference (fns : List (String × Footnote)) (label : String) :
    fnSkeleton (register_footnote_reference fns label).1 =
      regSkel (fnSkeleton fns) label := by
  unfold register_footnote_reference regSkel
  cases hf : fns.find? (fun p => p.1 = label) with
  | some p =>
    have hmem : label ∈ (fnSkeleton fns).map Prod.fst := by
      rw [fnSkeleton_keys]; exact mem_keys_of_find?_some hf
    simp [hmem]
  | none =>
    have hmem : label ∉ (fnSkeleton fns).map Prod.fst := by
      rw [fnSkeleton_keys]; exact not_mem_keys_of_find?_none hf
    simp only [if_neg hmem]
    unfold fnSkeleton
    rw [List.map_append]
    simp [fnSkeleton]

theorem skel_register_definition (fns : List (String × Footnote)) (label : String) :
    fnSkeleton (register_footnote_definition fns label).1 =
      regSkel (fnSkeleton fns) label := by
  unfold register_footnote_definition regSkel
  cases hf : fns.find? (fun p => p.1 = label) with
  | some p =>
    have hmem : label ∈ (fnSkeleton fns).map Prod.fst := by
      rw [fnSkeleton_keys]; exact mem_keys_of_find?_some hf
    simp only [if_pos hmem]
    exact skel_map_defined label fns
  | none =>
    have hmem : label ∉ (fnSkeleton fns).map Prod.fst := by
      rw [fnSkeleton_keys]; exact not_mem_keys_of_find?_none hf
    simp only [if_neg hmem]
    unfold fnSkeleton
    rw [List.map_append]
    simp [fnSkeleton]

theorem skel_start_tag (c : Container) (a : Attrs) (st st' : WriterSt)
    (h : start_tag st c a = .ok st') :
    fnSkeleton st'.footnotes =
      List.foldl regSkel (fnSkeleton st.footnotes) (fnLabels1 (Event.start c a)) := by
  cases c with
  | blockquote => exact skelPres_write_tag_nl _ _ st st' h
  | descriptionList => exact skelPres_write_tag_nl _ _ st st' h
  | descriptionTerm => exact skelPres_write_tag_nl _ _ st st' h
  | descriptionDetails => exact skelPres_write_tag_nl _ _ st st' h
  | sec id => exact skelPres_write_tag_nl _ _ st st' h
  | heading level id =>
    exact skelPres_bind (skelPres_write_tag_nl _ _) (skelPres_write_tag _ _) st st' h
  | div => exact skelPres_write_tag_nl _ _ st st' h
  | paragraph =>
    simp only [start_tag] at h
    by_cases hit : Writer.in_tight_list st = true
    · rw [if_pos hit] at h
      injection h with h
      rw [← h]
      rfl
    · rw [if_neg hit] at h
      exact skelPres_write_tag_nl _ _ st st' h
  | link destination => exact skelPres_write_tag_nl _ _ st st' h
  | list kind tight =>
    simp only [start_tag] at h
    cases kind with
    | unordered =>
      dsimp only at h
      have hw := skelPres_write_tag_nl _ _ _ st' h
      exact hw
    | ordered numbering start =>
      dsimp only at h
      have hw := skelPres_write_tag_nl _ _ _ st' h
      exact hw
    | task =>
      dsimp only at h
      have hw := skelPres_write_tag_nl _ _ _ st' h
      exact hw
  | listItem => exact skelPres_write_tag_nl _ _ st st' h
  | taskListItem checked => exact skelPres_write_tag_nl _ _ st st' h
  | table => exact skelPres_write_tag_nl _ _ st st' h
  | tableHead => exact skelPres_write_tag_nl _ _ st st' h
  | tableBody => exact skelPres_write_tag_nl _ _ st st' h
  | tableRow => exact skelPres_write_tag_nl _ _ st st' h
  | tableCell alignment head => exact skelPres_write_tag_nl _ _ _ st' h
  | footnote label =>
    simp only [start_tag] at h
    have hw := skelPres_write_tag_nl _ _ _ st' h
    show fnSkeleton st'.footnotes = regSkel (fnSkeleton st.footnotes) label
    rw [← skel_register_definition st.footnotes label]
    exact hw
  | other tag => exact skelPres_write_tag_nl _ _ st st' h

theorem skel_end_tag (c : ContainerEnd) (st st' : WriterSt)
    (h : end_tag st c = .ok st') :
    fnSkeleton st'.footnotes = fnSkeleton st.footnotes := by
  cases c with
  | blockquote => exact skelPres_write _ st st' h
  | descriptionList => exact skelPres_write_on_new_line _ st st' h
  | descriptionTerm => exact skelPres_write _ st st' h
  | descriptionDetails => exact skelPres_write _ st st' h
  | heading level => exact skelPres_write _ st st' h
  | sec => exact skelPres_write _ st st' h
  | div => exact skelPres_write _ st st' h
  | paragraph =>
    simp only [end_tag] at h
    by_cases hit : Writer.in_tight_list st = true
    · rw [if_pos hit] at h
      injection h with h
      rw [← h]
    · rw [if_neg hit] at h
      exact skelPres_write _ st st' h
  | link => exact skelPres_write _ st st' h
  | list kind =>
    simp only [end_tag] at h
    cases kind with
    | unordered =>
      dsimp only at h
      have hw := skelPres_write _ _ st' h
      exact hw
    | ordered numbering start =>
      dsimp only at h
      have hw := skelPres_write _ _ st' h
      exact hw
    | task =>
      dsimp only at h
      have hw := skelPres_write _ _ st' h
      exact hw
  | listItem => exact skelPres_write _ st st' h
  | taskListItem => exact skelPres_write _ st st' h
  | table => exact skelPres_write _ st st' h
  | tableHead => exact skelPres_write _ st st' h
  | tableBody => exact skelPres_write _ st st' h
  | tableRow => exact skelPres_write _ st st' h
  | tableCell head => exact skelPres_write _ st st' h
  | footnote =>
    simp only [end_tag] at h
    cases hop : Writer.write_on_new_line st "</li>\n" with
    | error e => rw [hop, exceptBind_err] at h; exact absurd h (by simp)
    | ok st1 =>
      rw [hop, exceptBind_ok] at h
      injection h with h
      rw [← h]
      exact skelPres_write_on_new_line _ st st1 hop
  | other tag => exact skelPres_write _ st st' h

theorem skel_step (hl : Hl) (images : List (String × Images)) (ev : Event)
    (st st' : WriterSt) (h : step hl images st ev = .ok st') :
    fnSkeleton st'.footnotes =
      List.foldl regSkel (fnSkeleton st.footnotes) (fnLabels1 ev) := by
  cases ev with
  | start container attributes => exact skel_start_tag container attributes st st' h
  | end_ container => exact skel_end_tag container st st' h
  | str s =>
    simp only [step] at h
    exact skelPres_with_buf _ st st' h
  | image destination alt attributes =>
    simp only [step] at h
    cases hli : lookupMap images destination with
    | none =>
      rw [hli] at h
      dsimp only at h
      injection h with h
      rw [← h]
      rfl
    | some imgs =>
      rw [hli] at h
      dsimp only at h
      exact skelPres_write_tag_nl _ _ st st' h
  | codeBlock language code attributes =>
    simp only [step] at h
    cases hhl : hl code language with
    | error e => rw [hhl] at h; exact absurd h (by simp)
    | ok hres =>
      rw [hhl] at h
      cases hres with
      | plain plaintext =>
        exact skelPres_bind (skelPres_write_tag_nl _ _)
          (skelPres_bind (skelPres_write_on_new_line _)
            (skelPres_bind (skelPres_write_on_new_line _)
              (skelPres_write_on_new_line _))) st st' h
      | highlighted language2 highlighted =>
        exact skelPres_bind (skelPres_write_tag_nl _ _)
          (skelPres_bind (skelPres_write_tag_nl _ _)
            (skelPres_bind (skelPres_write_on_new_line _)
              (skelPres_write_on_new_line _))) st st' h
  | math kind math attributes =>
    exact skelPres_bind (skelPres_write_tag_nl _ _)
      (skelPres_bind (skelPres_with_buf _) (skelPres_write _)) st st' h
  | htmlBlock content attributes =>
    exact skelPres_bind (skelPres_write_tag_nl _ _)
      (skelPres_bind (skelPres_write _) (skelPres_write _)) st st' h
  | htmlInline content attributes =>
    simp only [step] at h
    by_cases hemp : attributes.isEmpty = true
    · rw [if_pos hemp] at h
      exact skelPres_write _ st st' h
    · rw [if_neg hemp] at h
      exact skelPres_bind (skelPres_write_tag_nl _ _)
        (skelPres_bind (skelPres_write _) (skelPres_write _)) st st' h
  | tagWithAttribute tag attributes => exact skelPres_write_tag_nl _ _ st st' h
  | footnoteReference reference =>
    simp only [step] at h
    have hw := skelPres_bind (skelPres_write _)
      (skelPres_bind (skelPres_write_tag _ _)
        (skelPres_bind (skelPres_with_buf _)
          (skelPres_bind (skelPres_write _)
            (skelPres_write_on_new_line _)))) _ st' h
    show fnSkeleton st'.footnotes = regSkel (fnSkeleton st.footnotes) reference
    rw [← skel_register_reference st.footnotes reference]
    exact hw

theorem skel_runEvents (hl : Hl) (images : List (String × Images)) :
    ∀ (events : List Event) (st st' : WriterSt),
      runEvents hl images st events = .ok st' →
      fnSkeleton st'.footnotes =
        List.foldl regSkel (fnSkeleton st.footnotes) (fnLabels events) := by
  intro events
  induction events with
  | nil =>
    intro st st' h
    injection h with h
    rw [← h]
    rfl
  | cons ev rest ih =>
    intro st st' h
    simp only [runEvents] at h
    cases hstep : step hl images st ev with
    | error e => rw [hstep] at h; exact absurd h (by simp)
    | ok st1 =>
      rw [hstep] at h
      dsimp only at h
      have h1 := skel_step hl images ev st st1 hstep
      have h2 := ih st1 st' h
      have hsplit : fnLabels (ev :: rest) = fnLabels1 ev ++ fnLabels rest := rfl
      rw [h2, h1, hsplit, List.foldl_append]

theorem keys_foldl_regSkel :
    ∀ (ls : List String) (skel : List (String × Nat)),
      (List.foldl regSkel skel ls).map Prod.fst =
        List.foldl (fun acc l => if l ∈ acc then acc else acc ++ [l]) (skel.map Prod.fst) ls := by
  intro ls
  induction ls with
  | nil => intro skel; rfl
  | cons l t ih =>
    intro skel
    rw [List.foldl_cons, List.foldl_cons, ih]
    congr 1
    unfold regSkel
    by_cases h : l ∈ skel.map Prod.fst
    · rw [if_pos h, if_pos h]
    · rw [if_neg h, if_neg h, List.map_append]
      rfl

theorem numbers_foldl_regSkel :
    ∀ (ls : List String) (skel : List (String × Nat)),
      skel.map Prod.snd = List.range' 1 skel.length →
      (List.foldl regSkel skel ls).map Prod.snd =
        List.range' 1 (List.foldl regSkel skel ls).length := by
  intro ls
  induction ls with
  | nil => intro skel h; exact h
  | cons l t ih =>
    intro skel h
    rw [List.foldl_cons]
    apply ih
    unfold regSkel
    by_cases hm : l ∈ skel.map Prod.fst
    · rw [if_pos hm]; exact h
    · rw [if_neg hm, List.map_append, List.length_append]
      simp only [List.map_cons, List.map_nil, List.length_cons, List.length_nil]
      rw [h]
      simp [List.range'_1_concat, Nat.add_comm]

theorem lookupFnNumber_eq_skel (fns : List (String × Footnote)) (label : String) :
    lookupFnNumber fns label =
      ((fnSkeleton fns).find? (fun p => p.1 = label)).map Prod.snd := by
  induction fns with
  | nil => rfl
  | cons p t ih =>
    obtain ⟨l, fn⟩ := p
    by_cases h : l = label
    · subst h
      simp [lookupFnNumber, lookupMap, fnSkeleton, List.find?_cons_of_pos]
    · simp only [lookupFnNumber, lookupMap, fnSkeleton, List.map_cons] at ih ⊢
      rw [List.find?_cons_of_neg _ (by simp [h]), List.find?_cons_of_neg _ (by simp [h])]
      exact ih

/-- Claim C1: footnote numbers are assigned the first time a label is seen —
whether via a `FootnoteReference` event or a `Footnote` definition start — as
the current footnote-map size plus 1; consequently, in every document whose
first two distinct footnote labels (in reference-or-definition order) are
`"a"` then `"b"`, label `"a"` receives number 1 and `"b"` number 2 regardless
of where (and in which order) the definitions appear. -/
theorem c1_footnote_numbering :
    (∀ (fns : List (String × Footnote)) (label : String),
        label ∉ fns.map Prod.fst →
          (register_footnote_reference fns label).2 = fns.length + 1 ∧
          (register_footnote_definition fns label).2 = fns.length + 1)
  ∧ (∀ (hl : Hl) (images : List (String × Images)) (events : List Event) (st' : WriterSt),
        runEvents hl images initialWriter events = .ok st' →
        firstSeen (fnLabels events) = ["a", "b"] →
          lookupFnNumber st'.footnotes "a" = some 1 ∧
          lookupFnNumber st'.footnotes "b" = some 2) := by
  constructor
  · intro fns label hmem
    have hf : fns.find? (fun p => p.1 = label) = none := by
      refine List.find?_eq_none.mpr ?_
      intro p hp
      simp only [decide_eq_true_eq]
      intro hpl
      exact hmem (hpl ▸ List.mem_map.mpr ⟨p, hp, rfl⟩)
    constructor
    · simp [register_footnote_reference, hf]
    · simp [register_footnote_definition, hf]
  · intro hl images events st' hrun hfs
    have hskel := skel_runEvents hl images events initialWriter st' hrun
    have hinit : fnSkeleton initialWriter.footnotes = [] := rfl
    rw [hinit] at hskel
    have hkeys : (fnSkeleton st'.footnotes).map Prod.fst = ["a", "b"] := by
      rw [hskel, keys_foldl_regSkel (fnLabels events) []]
      exact hfs
    have hnums : (fnSkeleton st'.footnotes).map Prod.snd =
        List.range' 1 (fnSkeleton st'.footnotes).length := by
      rw [hskel]
      exact numbers_foldl_regSkel (fnLabels events) [] rfl
    have key : ∀ sk : List (String × Nat),
        sk.map Prod.fst = ["a", "b"] →
        sk.map Prod.snd = List.range' 1 sk.length →
          (sk.find? (fun p => p.1 = "a")).map Prod.snd = some 1 ∧
          (sk.find? (fun p => p.1 = "b")).map Prod.snd = some 2 := by
      intro sk h1 h2
      rcases sk with _ | ⟨p, _ | ⟨q, _ | ⟨r, t⟩⟩⟩ <;> simp at h1
      obtain ⟨hp1, hq1⟩ := h1
      simp only [List.map_cons, List.map_nil, List.length_cons, List.length_nil] at h2
      have hrr : List.range' 1 (0 + 1 + 1) = [1, 2] := by decide
      rw [hrr] at h2
      simp only [List.cons.injEq, and_true] at h2
      obtain ⟨hp2, hq2⟩ := h2
      rw [List.find?_cons_of_pos _ (by simp [hp1]),
        List.find?_cons_of_neg _ (by simp [hp1]),
        List.find?_cons_of_pos _ (by simp [hq1])]
      simp [hp2, hq2]
    rw [lookupFnNumber_eq_skel st'.footnotes "a", lookupFnNumber_eq_skel st'.footnotes "b"]
    exact key _ hkeys hnums

/-! ## Event-loop composition lemmas (claims C3 and C7) -/

theorem runEvents_append (hl : Hl) (images : List (String × Images)) :
    ∀ (a b : List Event) (st : WriterSt),
      runEvents hl images st (a ++ b) =
        match runEvents hl images st a with
        | .ok st1 => runEvents hl images st1 b
        | .error h => .error h := by
  intro a
  induction a with
  | nil => intro b st; rfl
  | cons ev rest ih =>
    intro b st
    show runEvents hl images st (ev :: (rest ++ b)) = _
    simp only [runEvents]
    cases hstep : step hl images st ev with
    | error e => rfl
    | ok st1 => exact ih b st1

/-- Claim C7: an `Image` event whose destination is missing from the
image-variant table contributes nothing to the output and does not fail:
rendering the document equals rendering the same document with the event
removed. -/
theorem c7_missing_image_nonfatal (hl : Hl) (images : List (String × Images))
    (pre post : List Event) (destination alt : String) (attributes : Attrs)
    (hmiss : lookupMap images destination = none) :
    push_html hl images (pre ++ Event.image destination alt attributes :: post) =
      push_html hl images (pre ++ post) := by
  have hstep : ∀ st, step hl images st (Event.image destination alt attributes) = .ok st := by
    intro st
    simp [step, hmiss]
  unfold push_html
  rw [runEvents_append, runEvents_append]
  cases hpre : runEvents hl images initialWriter pre with
  | error e => rfl
  | ok st1 =>
    show (match runEvents hl images st1 (Event.image destination alt attributes :: post) with
          | .ok st => finish st | .error h => .error h) = _
    simp only [runEvents, hstep]

/-- Witness for C7: a document with an unknown image renders identically to
the document without it. -/
theorem c7_missing_image_nonfatal_witness :
    push_html hl0 [] [Event.str "hi", Event.image "missing.png" "a" [], Event.str "!"] =
      push_html hl0 [] [Event.str "hi", Event.str "!"] :=
  c7_missing_image_nonfatal hl0 [] [Event.str "hi"] [Event.str "!"] "missing.png" "a" []
    (by decide)

/-! ## Body-text escaping (claim C8) -/

/-- Counterexample to claim C8 as stated: rendering the `Str` event
`<script>&"'` appends `&lt;script&gt;&amp;"'` — the double-quote and the
apostrophe are *not* escaped by body-text escaping — which differs from the
claimed `&lt;script&gt;&amp;&quot;&#x27;`. -/
theorem c8_escaping_counterexample :
    push_html hl0 [] [Event.str "<script>&\"'"] = .ok "&lt;script&gt;&amp;\"'" ∧
    ("&lt;script&gt;&amp;\"'" : String) ≠ "&lt;script&gt;&amp;&quot;&#x27;" := by
  constructor
  · rfl
  · decide

/-- Claim C8 (amended): rendering a `Str` event containing the literal text
`<script>&"'` as HTML body text appends exactly `&lt;script&gt;&amp;"'` to
the output: `<`, `>` and `&` are escaped exactly once, while `"` and `'` are
left unescaped (body-text escaping does not escape quotes). -/
theorem c8_escaping_amended (hl : Hl) (images : List (String × Images)) :
    push_html hl images [Event.str "<script>&\"'"] = .ok "&lt;script&gt;&amp;\"'" := rfl

/-! ## The summary/rest split (claim C3) -/

theorem splitAtMore_eq_none :
    ∀ events : List Event,
      (∀ i, isMoreMarker (events.drop i) = false) → splitAtMore events = none := by
  intro events
  induction events with
  | nil => intro _; rfl
  | cons e rest ih =>
    intro h
    have hrest := ih (fun i => h (i + 1))
    rw [splitAtMore.eq_def]
    split
    · exfalso
      rename_i attrsX restX heq
      have h0 := h 0
      simp only [List.drop_zero] at h0
      rw [heq] at h0
      simp [isMoreMarker] at h0
    · rename_i e' rest' heq
      injection heq with h1 h2
      subst h1
      subst h2
      rw [hrest]
      rfl
    · rfl

/-- Claim C3: for every document containing no paragraph whose sole literal
content is the marker string `-more-`, the summary/rest split renders the
whole document into `summary_html` and leaves `rest_html` empty. -/
theorem c3_split_no_marker (hl : Hl) (images : List (String × Images))
    (events : List Event) (out : String)
    (hno : ∀ i, isMoreMarker (events.drop i) = false)
    (hrender : push_html hl images events = .ok out) :
    render hl images events = .ok (out, "") := by
  unfold render
  rw [splitAtMore_eq_none events hno, hrender]
  rfl

/-- Witness for C3: a one-paragraph document without the marker renders with
an empty rest part. -/
theorem c3_split_no_marker_witness :
    render hl0 [] [Event.start .paragraph [], Event.str "hello", Event.end_ .paragraph] =
      .ok ("<p>hello</p>\n", "") := by
  refine c3_split_no_marker hl0 []
    [Event.start .paragraph [], Event.str "hello", Event.end_ .paragraph]
    "<p>hello</p>\n" ?_ (by rfl)
  intro i
  match i with
  | 0 => rfl
  | 1 => rfl
  | 2 => rfl
  | (n + 3) =>
    rw [List.drop_eq_nil_of_le (by simp)]
    rfl

/-! ## Title extraction (claim C5) -/

/-- Claim C5, evaluated at its failing input: on a buffer whose first event is
a `Section` start *not* immediately followed by a level-1 `Heading` start,
`parse_and_render_title` returns no title but the `events.drain(1..2)` of the
source still removes the second event (here the `Paragraph` start), so the
buffer is *not* left unchanged.  (When a level-1 heading is present the title
is extracted and exactly the heading events are removed, as the second
conjunct shows.) -/
theorem c5_title_extraction_divergence :
    parse_and_render_title hl0
        [Event.start (.sec "s") [], Event.start .paragraph [], Event.str "x",
         Event.end_ .paragraph, Event.end_ .sec] =
      .ok (none,
        [Event.start (.sec "s") [], Event.str "x", Event.end_ .paragraph, Event.end_ .sec]) ∧
    [Event.start (Container.sec "s") [], Event.str "x", Event.end_ .paragraph,
        Event.end_ .sec] ≠
      [Event.start (.sec "s") [], Event.start .paragraph [], Event.str "x",
       Event.end_ .paragraph, Event.end_ .sec] ∧
    parse_and_render_title hl0
        [Event.start (.sec "s") [], Event.start (.heading 1 "t") [], Event.str "T",
         Event.end_ (.heading 1), Event.str "rest", Event.end_ .sec] =
      .ok (some "T", [Event.start (.sec "s") [], Event.str "rest", Event.end_ .sec]) := by
  refine ⟨rfl, by decide, rfl⟩

/-! ## Image rendering (claim C6) -/

/-- Claim C6, evaluated at its failing input: for an image present in the
variant table, the writer emits the `<img>` tag with `src` (and, when an
original width is recorded, the `srcset` listing the original, 1536px and
768px variants in that order plus a `style` bound) — but the alt text is
dropped whenever it is non-empty: the `alt` attribute is emitted (empty)
exactly when the alt text is the empty string, because the source guards the
attribute with `(alt == "").then(…)`. -/
theorem c6_image_alt_divergence :
    push_html hl0 [("img.png", ⟨"img.png", none, none, none⟩)]
        [Event.image "img.png" "alt text" []] = .ok "<img src=\"img.png\">" ∧
    push_html hl0 [("img.png", ⟨"img.png", none, none, none⟩)]
        [Event.image "img.png" "" []] = .ok "<img src=\"img.png\" alt=\"\">" ∧
    push_html hl0 [("pic.png", ⟨"pic.png", some 2048, some "pic-1536.png", some "pic-768.png"⟩)]
        [Event.image "pic.png" "x" []] =
      .ok "<img src=\"pic.png\" srcset=\"/pic.png 2048w,/pic-1536.png 1536w,/pic-768.png 768w\" style=\"max-width: calc(min(100%, 2048px))\">" := by
  refine ⟨rfl, rfl, rfl⟩

/-! ## Internal-link rewriting lemmas (claims C4 and C10) -/

theorem rewrite_prefix_ok (entries : List (String × EntryRef)) :
    ∀ (pre evs : List Event) (preE : List Event) (preL : List EntryRef),
      rewrite_and_emit_internal_links entries pre = some (.ok (preE, preL)) →
      rewrite_and_emit_internal_links entries (pre ++ evs) =
        match rewrite_and_emit_internal_links entries evs with
        | none => none
        | some (.error e) => some (.error e)
        | some (.ok (E, L)) => some (.ok (preE ++ E, preL ++ L)) := by
  intro pre
  induction pre with
  | nil =>
    intro evs preE preL hpre
    simp only [rewrite_and_emit_internal_links, Option.some.injEq, Except.ok.injEq,
      Prod.mk.injEq] at hpre
    obtain ⟨h1, h2⟩ := hpre
    subst h1
    subst h2
    show rewrite_and_emit_internal_links entries evs = _
    cases hre : rewrite_and_emit_internal_links entries evs with
    | none => rfl
    | some r =>
      cases r with
      | error e => rfl
      | ok p => simp
  | cons ev pre ih =>
    intro evs preE preL hpre
    simp only [rewrite_and_emit_internal_links] at hpre
    rw [show (ev :: pre) ++ evs = ev :: (pre ++ evs) from rfl]
    simp only [rewrite_and_emit_internal_links]
    split at hpre
    · rename_i destination attributes
      cases hrl : rewrite_link destination entries with
      | none => rw [hrl] at hpre; simp at hpre
      | some r =>
        cases r with
        | error e => rw [hrl] at hpre; simp at hpre
        | ok q =>
          obtain ⟨nd, eo⟩ := q
          rw [hrl] at hpre
          dsimp only at hpre
          cases hrp : rewrite_and_emit_internal_links entries pre with
          | none => rw [hrp] at hpre; simp at hpre
          | some r2 =>
            cases r2 with
            | error e => rw [hrp] at hpre; simp at hpre
            | ok p2 =>
              obtain ⟨pE, pL⟩ := p2
              rw [hrp] at hpre
              simp only [Option.some.injEq, Except.ok.injEq, Prod.mk.injEq] at hpre
              obtain ⟨h1, h2⟩ := hpre
              subst h1
              subst h2
              dsimp only
              rw [ih evs pE pL hrp]
              cases hre : rewrite_and_emit_internal_links entries evs with
              | none => rfl
              | some r3 =>
                cases r3 with
                | error e => rfl
                | ok p3 => simp
    · rename_i e hne
      cases hrp : rewrite_and_emit_internal_links entries pre with
      | none => rw [hrp] at hpre; simp at hpre
      | some r2 =>
        cases r2 with
        | error e2 => rw [hrp] at hpre; simp at hpre
        | ok p2 =>
          obtain ⟨pE, pL⟩ := p2
          rw [hrp] at hpre
          simp only [Option.some.injEq, Except.ok.injEq, Prod.mk.injEq] at hpre
          obtain ⟨h1, h2⟩ := hpre
          subst h1
          subst h2
          rw [ih evs pE pL hrp]
          cases hre : rewrite_and_emit_internal_links entries evs with
          | none => rfl
          | some r3 =>
            cases r3 with
            | error e3 => rfl
            | ok p3 => simp

theorem splitHash_append (anchor : List Char)
    (hanchor : anchor = [] ∨ anchor.head? = some '#') :
    ∀ name : List Char, '#' ∉ name →
      (name ++ anchor).takeWhile (fun c => c ≠ '#') = name ∧
      (name ++ anchor).dropWhile (fun c => c ≠ '#') = anchor := by
  intro name
  induction name with
  | nil =>
    intro _
    rcases hanchor with h | h
    · subst h
      exact ⟨rfl, rfl⟩
    · cases anchor with
      | nil => exact ⟨rfl, rfl⟩
      | cons a t =>
        simp only [Option.some.injEq, List.head?_cons] at h
        subst h
        simp [List.takeWhile, List.dropWhile]
  | cons c name ih =>
    intro hmem
    have hc : c ≠ '#' := fun h => hmem (h ▸ List.mem_cons_self c name)
    have hrec := ih (fun h => hmem (List.mem_cons_of_mem c h))
    simp only [List.cons_append, List.takeWhile, List.dropWhile]
    rw [decide_eq_true hc]
    exact ⟨congrArg (c :: ·) hrec.1, hrec.2⟩

/-- What `rewrite_link` does to a destination of the shape
`~/<name><anchor>` with `'#' ∉ name` and the anchor either empty or starting
with `'#'`: the name is looked up, and on success the destination becomes the
permalink plus the anchor. -/
theorem rewrite_link_tilde (entries : List (String × EntryRef)) (name anchor : List Char)
    (hname : '#' ∉ name) (hanchor : anchor = [] ∨ anchor.head? = some '#') :
    rewrite_link (String.mk ('~' :: '/' :: (name ++ anchor))) entries =
      match lookupMap entries (String.mk name) with
      | some entry => some (.ok (entry.permalink ++ String.mk anchor, some entry))
      | none =>
        some (.error ("Unknown internal link: " ++ String.mk ('~' :: '/' :: (name ++ anchor)))) := by
  have hlen : 2 ≤ utf8Len (String.mk ('~' :: '/' :: (name ++ anchor))) := by
    simp [utf8Len, charUtf8Size]
    omega
  have hbd : isCharBoundary (String.mk ('~' :: '/' :: (name ++ anchor))) 2 = true := by
    simp [isCharBoundary, boundaryAux, charUtf8Size]
  unfold rewrite_link
  rw [if_neg (by simp [hlen, hbd])]
  have htake : (String.mk ('~' :: '/' :: (name ++ anchor))).data.take 2 = ['~', '/'] := rfl
  rw [if_pos htake]
  have hdrop : (String.mk ('~' :: '/' :: (name ++ anchor))).data.drop 2 = name ++ anchor := rfl
  rw [hdrop]
  obtain ⟨ht, hd⟩ := splitHash_append anchor hanchor name hname
  dsimp only
  rw [ht, hd]

/-- Claim C4 (amended): `rewrite_and_emit_internal_links` rewrites every
*Link-start* destination of the form `~/<name>[#fragment]`: if the canonical
name is in the table the destination becomes the entry's permalink followed
by the original fragment (and the entry is collected); if the name is absent
the function returns an error rather than leaving the destination unchanged.
(Destinations of `Image` events are not rewritten — see the counterexample.) -/
theorem c4_internal_links_amended (entries : List (String × EntryRef))
    (name anchor : List Char) (attrs : Attrs)
    (pre post preE postE : List Event) (preL postL : List EntryRef)
    (hname : '#' ∉ name) (hanchor : anchor = [] ∨ anchor.head? = some '#')
    (hpre : rewrite_and_emit_internal_links entries pre = some (.ok (preE, preL)))
    (hpost : rewrite_and_emit_internal_links entries post = some (.ok (postE, postL))) :
    (∀ entry, lookupMap entries (String.mk name) = some entry →
      rewrite_and_emit_internal_links entries
          (pre ++ Event.start (.link (String.mk ('~' :: '/' :: (name ++ anchor)))) attrs :: post) =
        some (.ok
          (preE ++ Event.start (.link (entry.permalink ++ String.mk anchor)) attrs :: postE,
           preL ++ entry :: postL))) ∧
    (lookupMap entries (String.mk name) = none →
      rewrite_and_emit_internal_links entries
          (pre ++ Event.start (.link (String.mk ('~' :: '/' :: (name ++ anchor)))) attrs :: post) =
        some (.error
          ("Unknown internal link: " ++ String.mk ('~' :: '/' :: (name ++ anchor))))) := by
  have hrl := rewrite_link_tilde entries name anchor hname hanchor
  constructor
  · intro entry hfound
    rw [hfound] at hrl
    rw [rewrite_prefix_ok entries pre _ preE preL hpre]
    simp only [rewrite_and_emit_internal_links, hrl, hpost]
    rfl
  · intro hmissing
    rw [hmissing] at hrl
    rw [rewrite_prefix_ok entries pre _ preE preL hpre]
    simp only [rewrite_and_emit_internal_links, hrl]

/-- Witness for C4 (amended) at the spec's example: `~/posts/example#section`
resolves through permalink `2024/example.html` to
`2024/example.html#section`, and an unknown name errors. -/
theorem c4_internal_links_amended_witness :
    rewrite_and_emit_internal_links [("posts/example", ⟨"2024/example.html"⟩)]
        [Event.start (.link "~/posts/example#section") []] =
      some (.ok ([Event.start (.link "2024/example.html#section") []],
                 [⟨"2024/example.html"⟩])) ∧
    rewrite_and_emit_internal_links ([] : List (String × EntryRef))
        [Event.start (.link "~/posts/example#section") []] =
      some (.error "Unknown internal link: ~/posts/example#section") := by
  constructor
  · have h := (c4_internal_links_amended [("posts/example", ⟨"2024/example.html"⟩)]
        "posts/example".data "#section".data [] [] [] [] [] [] []
        (by decide) (by decide) rfl rfl).1 ⟨"2024/example.html"⟩ (by decide)
    have e1 : String.mk ('~' :: '/' :: ("posts/example".data ++ "#section".data)) =
        "~/posts/example#section" := by decide
    have e2 : ("2024/example.html" : String) ++ String.mk "#section".data =
        "2024/example.html#section" := by decide
    rw [e1, e2] at h
    exact h
  · have h := (c4_internal_links_amended ([] : List (String × EntryRef))
        "posts/example".data "#section".data [] [] [] [] [] [] []
        (by decide) (by decide) rfl rfl).2 (by decide)
    have e1 : String.mk ('~' :: '/' :: ("posts/example".data ++ "#section".data)) =
        "~/posts/example#section" := by decide
    rw [e1] at h
    exact h

/-- Counterexample to claim C4 as stated: an `Image` event whose destination
begins with `~/` and whose canonical name is absent from the table is left
completely untouched and produces *no* error — only `Link` start destinations
are rewritten. -/
theorem c4_internal_links_counterexample :
    rewrite_and_emit_internal_links ([] : List (String × EntryRef))
        [Event.image "~/x" "" []] =
      some (.ok ([Event.image "~/x" "" []], [])) ∧
    ("~/x" : String).data.take 2 = ['~', '/'] ∧
    lookupMap ([] : List (String × EntryRef)) "x" = none := by
  refine ⟨rfl, by decide, rfl⟩

/-- Claim C10 (amended): `rewrite_and_emit_internal_links` is not total: a
`Link` start whose destination is shorter than two UTF-8 bytes panics on the
byte-range index `old_link[0..2]` — provided processing reaches it, i.e. every
earlier event processes without a fatal error. -/
theorem c10_short_destination_panics :
    (∀ (dest : String) (entries : List (String × EntryRef)),
        utf8Len dest < 2 → rewrite_link dest entries = none)
  ∧ (∀ (entries : List (String × EntryRef)) (pre : List Event) (preE : List Event)
        (preL : List EntryRef) (dest : String) (attrs : Attrs) (post : List Event),
        utf8Len dest < 2 →
        rewrite_and_emit_internal_links entries pre = some (.ok (preE, preL)) →
        rewrite_and_emit_internal_links entries
          (pre ++ Event.start (.link dest) attrs :: post) = none) := by
  have hrl : ∀ (dest : String) (entries : List (String × EntryRef)),
      utf8Len dest < 2 → rewrite_link dest entries = none := by
    intro dest entries hshort
    unfold rewrite_link
    rw [if_pos]
    intro hcontra
    omega
  refine ⟨hrl, ?_⟩
  intro entries pre preE preL dest attrs post hshort hpre
  rw [rewrite_prefix_ok entries pre _ preE preL hpre]
  simp only [rewrite_and_emit_internal_links, hrl dest entries hshort]

/-- Witness for C10 (amended): the empty destination panics immediately. -/
theorem c10_short_destination_panics_witness :
    rewrite_and_emit_internal_links ([] : List (String × EntryRef))
        [Event.start (.link "") []] = none := by
  have h := c10_short_destination_panics.2 [] [] [] [] "" [] [] (by decide) rfl
  exact h

/-- Counterexample to claim C10 as stated: a buffer *containing* a Link start
with a sub-two-byte destination need not make the function panic — an earlier
unresolvable link makes it return an `Err` value first. -/
theorem c10_short_destination_counterexample :
    utf8Len "" < 2 ∧
    rewrite_and_emit_internal_links ([] : List (String × EntryRef))
        [Event.start (.link "~/missing") [], Event.start (.link "") []] =
      some (.error "Unknown internal link: ~/missing") := by
  exact ⟨by decide, rfl⟩

/-! ## The Djot adapter's raw passthrough (claim C9) -/

theorem jd_drain_length :
    ∀ (l : List JdEvent) (depth : Nat),
      (jd_iter_container_from_inside depth l).2.length ≤ l.length := by
  intro l
  induction l with
  | nil => intro depth; simp [jd_iter_container_from_inside]
  | cons e rest ih =>
    intro depth
    cases e
    case start c a =>
      simpa [jd_iter_container_from_inside] using Nat.le_succ_of_le (ih (depth + 1))
    case end_ c =>
      by_cases h : depth ≤ 1
      · simp [jd_iter_container_from_inside, h, Nat.le_succ]
      · simpa [jd_iter_container_from_inside, h] using Nat.le_succ_of_le (ih (depth - 1))
    all_goals simpa [jd_iter_container_from_inside] using Nat.le_succ_of_le (ih depth)

theorem djot_to_ir_fuel_congr :
    ∀ (f1 f2 : Nat) (events : List JdEvent),
      events.length < f1 → events.length < f2 →
      djot_to_ir_fuel f1 events = djot_to_ir_fuel f2 events := by
  intro f1
  induction f1 with
  | zero => intro f2 events h1 _; exact absurd h1 (by omega)
  | succ f1 ih =>
    intro f2 events h1 h2
    cases events with
    | nil =>
      cases f2 with
      | zero => exact absurd h2 (by omega)
      | succ f2 => rfl
    | cons ev rest =>
      cases f2 with
      | zero => exact absurd h2 (by omega)
      | succ f2 =>
        simp only [List.length_cons] at h1 h2
        have hdl := jd_drain_length rest 1
        have hrec : djot_to_ir_fuel f1 rest = djot_to_ir_fuel f2 rest :=
          ih f2 rest (by omega) (by omega)
        have hrecd : djot_to_ir_fuel f1 (jd_iter_container_from_inside 1 rest).2 =
            djot_to_ir_fuel f2 (jd_iter_container_from_inside 1 rest).2 :=
          ih f2 _ (by omega) (by omega)
        cases ev with
        | start c attrs => cases c <;> simp only [djot_to_ir_fuel, hrec, hrecd]
        | end_ c => cases c <;> simp only [djot_to_ir_fuel, hrec, hrecd]
        | _ => simp only [djot_to_ir_fuel, hrec, hrecd]

theorem drain_append_aux :
    ∀ (inner : List JdEvent) (d : Nat) (c : JdContainer) (rest : List JdEvent),
      balancedJdAux d inner = true →
      jd_iter_container_from_inside (d + 1) (inner ++ JdEvent.end_ c :: rest) =
        (inner, rest) := by
  intro inner
  induction inner with
  | nil =>
    intro d c rest hb
    have hd : d = 0 := by simpa [balancedJdAux] using hb
    subst hd
    simp [jd_iter_container_from_inside]
  | cons e t ih =>
    intro d c rest hb
    cases e with
    | start c' a' =>
      simp only [balancedJdAux] at hb
      have := ih (d + 1) c rest hb
      simp only [List.cons_append, jd_iter_container_from_inside, List.append_eq, this]
    | end_ c' =>
      simp only [balancedJdAux] at hb
      cases d with
      | zero => simp at hb
      | succ d' =>
        rw [if_neg (by omega)] at hb
        have := ih d' c rest (by simpa using hb)
        have hne : ¬ (d' + 1 + 1 ≤ 1) := by omega
        simp only [List.cons_append, jd_iter_container_from_inside, if_neg hne, List.append_eq]
        simp only [Nat.add_sub_cancel, this]
    | str s =>
      simp only [balancedJdAux] at hb
      simp only [List.cons_append, jd_iter_container_from_inside, List.append_eq, ih d c rest hb]
    | symbol s =>
      simp only [balancedJdAux] at hb
      simp only [List.cons_append, jd_iter_container_from_inside, List.append_eq, ih d c rest hb]
    | softbreak =>
      simp only [balancedJdAux] at hb
      simp only [List.cons_append, jd_iter_container_from_inside, List.append_eq, ih d c rest hb]
    | hardbreak =>
      simp only [balancedJdAux] at hb
      simp only [List.cons_append, jd_iter_container_from_inside, List.append_eq, ih d c rest hb]
    | nonBreakingSpace =>
      simp only [balancedJdAux] at hb
      simp only [List.cons_append, jd_iter_container_from_inside, List.append_eq, ih d c rest hb]
    | escape =>
      simp only [balancedJdAux] at hb
      simp only [List.cons_append, jd_iter_container_from_inside, List.append_eq, ih d c rest hb]
    | blankline =>
      simp only [balancedJdAux] at hb
      simp only [List.cons_append, jd_iter_container_from_inside, List.append_eq, ih d c rest hb]
    | ellipsis =>
      simp only [balancedJdAux] at hb
      simp only [List.cons_append, jd_iter_container_from_inside, List.append_eq, ih d c rest hb]
    | enDash =>
      simp only [balancedJdAux] at hb
      simp only [List.cons_append, jd_iter_container_from_inside, List.append_eq, ih d c rest hb]
    | emDash =>
      simp only [balancedJdAux] at hb
      simp only [List.cons_append, jd_iter_container_from_inside, List.append_eq, ih d c rest hb]
    | leftSingleQuote =>
      simp only [balancedJdAux] at hb
      simp only [List.cons_append, jd_iter_container_from_inside, List.append_eq, ih d c rest hb]
    | leftDoubleQuote =>
      simp only [balancedJdAux] at hb
      simp only [List.cons_append, jd_iter_container_from_inside, List.append_eq, ih d c rest hb]
    | rightSingleQuote =>
      simp only [balancedJdAux] at hb
      simp only [List.cons_append, jd_iter_container_from_inside, List.append_eq, ih d c rest hb]
    | rightDoubleQuote =>
      simp only [balancedJdAux] at hb
      simp only [List.cons_append, jd_iter_container_from_inside, List.append_eq, ih d c rest hb]
    | footnoteReference r =>
      simp only [balancedJdAux] at hb
      simp only [List.cons_append, jd_iter_container_from_inside, List.append_eq, ih d c rest hb]
    | thematicBreak a =>
      simp only [balancedJdAux] at hb
      simp only [List.cons_append, jd_iter_container_from_inside, List.append_eq, ih d c rest hb]

/-- Claim C9 (amended): the Djot adapter passes a `RawInline`/`RawBlock`
container through as an `HtmlInline`/`HtmlBlock` IR event exactly when its
format tag is the literal string `"html"` or `"HTML"`; any other format tag —
including other casings such as `"Html"` — yields zero IR events.  The span's
textual content is collected with `render_to_raw_string` and the matching
`End` is consumed by the drain. -/
theorem c9_raw_format_amended (format : String) (attrs : Attrs)
    (inner rest : List JdEvent) (restIr : List Event)
    (hbal : balancedJdAux 0 inner = true)
    (hrest : djot_to_ir rest = some restIr) :
    djot_to_ir (JdEvent.start (.rawInline format) attrs ::
        inner ++ JdEvent.end_ (.rawInline format) :: rest) =
      some ((if format = "html" ∨ format = "HTML"
             then [Event.htmlInline (render_to_raw_string inner) attrs] else []) ++ restIr) ∧
    djot_to_ir (JdEvent.start (.rawBlock format) attrs ::
        inner ++ JdEvent.end_ (.rawBlock format) :: rest) =
      some ((if format = "html" ∨ format = "HTML"
             then [Event.htmlBlock (render_to_raw_string inner) attrs] else []) ++ restIr) := by
  have hdrainI : jd_iter_container_from_inside 1
      (inner ++ JdEvent.end_ (JdContainer.rawInline format) :: rest) = (inner, rest) :=
    drain_append_aux inner 0 (.rawInline format) rest hbal
  have hdrainB : jd_iter_container_from_inside 1
      (inner ++ JdEvent.end_ (JdContainer.rawBlock format) :: rest) = (inner, rest) :=
    drain_append_aux inner 0 (.rawBlock format) rest hbal
  have hfuel : ∀ tot : Nat, rest.length < tot →
      djot_to_ir_fuel tot rest = some restIr := by
    intro tot htot
    rw [djot_to_ir_fuel_congr tot (rest.length + 1) rest htot (by omega)]
    exact hrest
  constructor
  · show djot_to_ir_fuel _ _ = _
    simp only [djot_to_ir_fuel, List.append_eq, hdrainI]
    rw [hfuel _ (by simp [List.length_append]; omega)]
    rfl
  · show djot_to_ir_fuel _ _ = _
    simp only [djot_to_ir_fuel, List.append_eq, hdrainB]
    rw [hfuel _ (by simp [List.length_append]; omega)]
    rfl

/-- Witness for C9 (amended): `"HTML"` is passed through, `"foo"` is
dropped. -/
theorem c9_raw_format_amended_witness :
    djot_to_ir [JdEvent.start (.rawInline "HTML") [], JdEvent.str "x",
        JdEvent.end_ (.rawInline "HTML")] = some [Event.htmlInline "x" []] ∧
    djot_to_ir [JdEvent.start (.rawBlock "foo") [], JdEvent.str "x",
        JdEvent.end_ (.rawBlock "foo")] = some [] := by
  constructor
  · have h := (c9_raw_format_amended "HTML" [] [JdEvent.str "x"] [] []
      (by decide) rfl).1
    exact h.trans (by decide)
  · have h := (c9_raw_format_amended "foo" [] [JdEvent.str "x"] [] []
      (by decide) rfl).2
    exact h.trans (by decide)

/-- Counterexample to claim C9 as stated: the format tag comparison is *not*
case-insensitive — `"Html"` lowercases to `"html"` yet its raw container
yields zero IR events, while the two exact spellings `"html"` and `"HTML"`
are honored. -/
theorem c9_raw_format_counterexample :
    djot_to_ir [JdEvent.start (.rawInline "Html") [], JdEvent.str "x",
        JdEvent.end_ (.rawInline "Html")] = some [] ∧
    String.mk ("Html".data.map Char.toLower) = "html" ∧
    djot_to_ir [JdEvent.start (.rawInline "html") [], JdEvent.str "x",
        JdEvent.end_ (.rawInline "html")] = some [Event.htmlInline "x" []] := by
  refine ⟨by decide, by decide, by decide⟩

/-- Witness for C1: the concrete scenario — references `"a"`, `"b"`, then
definitions `"b"`, `"a"` — assigns number 1 to `"a"` and 2 to `"b"`. -/
theorem c1_footnote_numbering_witness :
    firstSeen (fnLabels c1Scenario) = ["a", "b"] ∧
    (runEvents hl0 [] initialWriter c1Scenario).map
      (fun st => (lookupFnNumber st.footnotes "a", lookupFnNumber st.footnotes "b")) =
      .ok (some 1, some 2) := by
  constructor
  · decide
  · have hok : (runEvents hl0 [] initialWriter c1Scenario).isOk = true := by decide
    cases hrun : runEvents hl0 [] initialWriter c1Scenario with
    | error e => rw [hrun] at hok; simp [Except.isOk, Except.toBool] at hok
    | ok st =>
      obtain ⟨h1, h2⟩ := c1_footnote_numbering.2 hl0 [] c1Scenario st hrun (by decide)
      simp [Except.map, h1, h2]

end Sprokkel
